import Mathlib

/-!
Verification development for the circuit-simulation core of the Orion
assistant repository (files `cad_designer.py` and `code_editor.py`).

The embedding is a direct shallow translation of the Python source:

* Python strings are `List Char` (`Str`); only ASCII inputs are considered,
  which covers every string the simulator core manipulates.
* Python dictionaries are insertion-ordered association lists (`Dict`);
  `dictSet` updates the first matching key in place and appends otherwise,
  exactly like Python assignment `d[k] = v`.
* Heterogeneous Python values stored in component state and in the pin
  tables are modelled by `PyVal` (booleans and integers), with Python
  truthiness as `PyVal.truthy`.
* Mutable Python objects (the `ComponentItem`s) live in an explicit object
  store `heap : Dict Nat Component`; a `Nat` reference plays the role of
  object identity, so the `==` identity tests of the Python code become
  `Nat` equality of references.  Wires hold references, as in the source.
* Purely visual data (Qt brushes, pin positions, the wire's temporary end
  point, labels) is omitted: it is never read by the simulation.  The
  integer geometry guards of `_create_pins` (`pin_y < height - 10`,
  `pin_x < width - 15`) are kept, since they decide which pins exist.
* The write-only fields `self.code` and `self.running` of
  `CircuitSimulator` are omitted: nothing in the repository ever reads
  them, so they carry no observable state.
-/

namespace Orion

/-- Characters of a Python string. -/
abbrev Str := List Char

/-- A Python runtime value as used by the simulator core: the pin tables and
component state bags only ever hold booleans and integers. -/
inductive PyVal where
  | bool (b : Bool)
  | int (n : Int)
deriving DecidableEq

/-- Python truthiness for the values above (`255 if state else 0`). -/
def PyVal.truthy : PyVal → Bool
  | .bool b => b
  | .int n => n != 0

/-- Insertion-ordered dictionary, as Python's `dict`. -/
abbrev Dict (α β : Type) := List (α × β)

/-- Lookup, first matching key wins (Python `d[k]` / `d.get(k)`). -/
def dictGet [BEq α] : Dict α β → α → Option β
  | [], _ => none
  | (k, v) :: t, q => if k == q then some v else dictGet t q

/-- Python `d.get(k, default)`. -/
def dictGetD [BEq α] (d : Dict α β) (q : α) (dflt : β) : β :=
  (dictGet d q).getD dflt

/-- Python `k in d`. -/
def dictMem [BEq α] (d : Dict α β) (q : α) : Bool :=
  (dictGet d q).isSome

/-- Python `d[k] = v`: replace the value of the first matching key in
place, keeping its position; append a fresh entry otherwise. -/
def dictSet [BEq α] : Dict α β → α → β → Dict α β
  | [], k, v => [(k, v)]
  | (k', v') :: t, k, v =>
      if k' == k then (k', v) :: t else (k', v') :: dictSet t k v

/-- The key sequence of a dictionary (Python `list(d)`). -/
def dictKeys (d : Dict α β) : List α := d.map Prod.fst

/-- Substring test, Python `needle in hay` for strings. -/
def containsSub (needle : Str) : Str → Bool
  | [] => needle.isEmpty
  | c :: cs => needle.isPrefixOf (c :: cs) || containsSub needle cs

/-! ## Pin model (`cad_designer.Pin`) -/

/-- A physical pin on a component (`cad_designer.py`, `Pin` dataclass).
The `position` attribute is a layout coordinate never read by the
simulation semantics and is omitted; `connected_to` is never consulted by
the simulator core either. -/
structure Pin where
  name : Str
  pin_type : Str
deriving DecidableEq

/-- `Pin.can_connect_to` translated verbatim from the source: if either
pin is of type "power" the names must coincide, otherwise any connection
is allowed. -/
def Pin.can_connect_to (self other : Pin) : Bool :=
  if self.pin_type == "power".data || other.pin_type == "power".data then
    self.name == other.name
  else true

/-! ## Component model (`cad_designer.ComponentItem`) -/

/-- A circuit component: type string, optional id, pins, static properties
and the mutable simulation state bag. -/
structure Component where
  component_type : Str
  component_id : Option Str
  pins : List Pin
  properties : Dict Str PyVal
  state : Dict Str PyVal
deriving DecidableEq

/-- The Arduino board pins created by `_create_pins`, including the
integer geometry guards of the source (`pin_y < height - 10`,
`pin_x < width - 15`) that decide which pins actually materialise. -/
def arduinoBoardPins (width height : Int) : List Pin :=
  ((List.range 8).filterMap (fun i =>
      if 25 + Int.ofNat i * 15 < height - 10 then
        some ⟨"D".data ++ (Nat.repr i).data, "digital".data⟩
      else none))
  ++ (if 25 + 8 * 15 < height - 10 then
        [⟨"GND".data, "gnd".data⟩] else [])
  ++ ((List.range 6).filterMap (fun i =>
      if 25 + Int.ofNat i * 15 < height - 10 then
        some ⟨"D".data ++ (Nat.repr (8 + i)).data, "digital".data⟩
      else none))
  ++ (if 25 + 6 * 15 < height - 10 then
        [⟨"5V".data, "power".data⟩, ⟨"GND".data, "gnd".data⟩] else [])
  ++ ((List.range 6).filterMap (fun i =>
      if 15 + Int.ofNat i * 13 < width - 15 then
        some ⟨"A".data ++ (Nat.repr i).data, "analog".data⟩
      else none))

/-- `ComponentItem.__init__` followed by `_create_pins`: the pin list and
the initial `state`/`properties` bags are fully determined by the
component type (and, for boards, by the geometry). The branch structure
and branch order mirror the source exactly. -/
def mkComponentItem (ctype : Str) (cid : Option Str) (width height : Int) :
    Component :=
  if containsSub "Arduino Uno".data ctype
      || containsSub "Arduino Nano".data ctype then
    { component_type := ctype, component_id := cid
      pins := arduinoBoardPins width height, properties := [], state := [] }
  else if ctype == "LED".data then
    { component_type := ctype, component_id := cid
      pins := [⟨"Anode".data, "digital".data⟩, ⟨"Cathode".data, "gnd".data⟩]
      properties := []
      state := [("on".data, .bool false), ("brightness".data, .int 0)] }
  else if ctype == "Resistor".data then
    { component_type := ctype, component_id := cid
      pins := [⟨"T1".data, "digital".data⟩, ⟨"T2".data, "digital".data⟩]
      properties := [("resistance".data, .int 220)], state := [] }
  else if ctype == "Button".data then
    { component_type := ctype, component_id := cid
      pins := [⟨"Pin1".data, "digital".data⟩, ⟨"Pin2".data, "digital".data⟩]
      properties := [], state := [("pressed".data, .bool false)] }
  else if containsSub "Sensor".data ctype then
    { component_type := ctype, component_id := cid
      pins := [⟨"VCC".data, "power".data⟩, ⟨"GND".data, "gnd".data⟩,
               ⟨"OUT".data, "analog".data⟩]
      properties := [], state := [("value".data, .int 0)] }
  else if containsSub "Motor".data ctype then
    { component_type := ctype, component_id := cid
      pins := [⟨"+".data, "power".data⟩, ⟨"-".data, "gnd".data⟩]
      properties := [], state := [("speed".data, .int 0)] }
  else
    { component_type := ctype, component_id := cid
      pins := [⟨"VCC".data, "power".data⟩, ⟨"GND".data, "gnd".data⟩,
               ⟨"SIG".data, "digital".data⟩]
      properties := [], state := [] }

/-- `ComponentItem.get_pin_by_name`: first pin with the given name. -/
def Component.get_pin_by_name (c : Component) (pin_name : Str) :
    Option Pin :=
  c.pins.find? (fun p => p.name == pin_name)

/-! ## Wire model (`cad_designer.WireItem`) -/

/-- A wire between two (component, pin-name) endpoints; components are
referenced by heap address (object identity).  The purely visual
`temp_end_point` preview state is omitted. -/
structure Wire where
  start_component : Option Nat
  start_pin_name : Option Str
  end_component : Option Nat
  end_pin_name : Option Str
deriving DecidableEq

/-- `WireItem.__init__`: stores the four endpoint attributes verbatim.
The source constructor performs no validation of any kind — it neither
checks that the endpoint pins exist nor calls `can_connect_to`. -/
def WireItem_init (start_comp : Option Nat) (start_pin : Option Str)
    (end_comp : Option Nat) (end_pin : Option Str) : Wire :=
  { start_component := start_comp, start_pin_name := start_pin
    end_component := end_comp, end_pin_name := end_pin }

/-- Completing a wire in `CADCanvas.mousePressEvent` (the second click):
the end endpoint is stored with no validation. -/
def completeWire (w : Wire) (comp : Nat) (pin : Str) : Wire :=
  { w with end_component := some comp, end_pin_name := some pin }

/-! ## Simulator (`code_editor.CircuitSimulator`) -/

/-- The module-level digital pin names `D0`..`D13`. -/
def ARDUINO_DIGITAL_PINS : List Str :=
  (List.range 14).map (fun i => "D".data ++ (Nat.repr i).data)

/-- The module-level analog pin names `A0`..`A5`. -/
def ARDUINO_ANALOG_PINS : List Str :=
  (List.range 6).map (fun i => "A".data ++ (Nat.repr i).data)

/-- Simulator state: the two pin tables, the loaded component dictionary
(id → reference), the wire list, and the object store holding the mutable
components. -/
structure Sim where
  arduino_pins : Dict Str PyVal
  analog_pins : Dict Str PyVal
  components : Dict (Option Str) Nat
  wires : List Wire
  heap : Dict Nat Component
deriving DecidableEq

/-- `CircuitSimulator.__init__`: all digital pins start `False`, all
analog pins start `0`, nothing is loaded. -/
def Sim.init : Sim :=
  { arduino_pins := ARDUINO_DIGITAL_PINS.map (fun p => (p, PyVal.bool false))
    analog_pins := ARDUINO_ANALOG_PINS.map (fun p => (p, PyVal.int 0))
    components := [], wires := [], heap := [] }

/-- `CircuitSimulator.load_circuit`: stores the wires as given and builds
the id → component dictionary.  Every `ComponentItem` has the
`component_id` attribute (set in `__init__`), so the `hasattr` filter of
the source keeps every component object; the dict comprehension is the
left fold of Python assignment. `objs` is the object store. -/
def Sim.load_circuit (s : Sim) (objs : Dict Nat Component)
    (wires : List Wire) : Sim :=
  { s with
    heap := objs
    components := objs.foldl (fun d rc => dictSet d rc.2.component_id rc.1) []
    wires := wires }

/-- The arduino lookup of `_propagate_signals`: the first loaded component
whose type string contains `"Arduino"`.  (A reference left dangling in the
dictionary cannot arise from Python, where the dictionary holds the object
itself; such model-only states are skipped.) -/
def Sim.findArduino (s : Sim) : Option Nat :=
  s.components.findSome? (fun kv =>
    match dictGet s.heap kv.2 with
    | some c =>
        if containsSub "Arduino".data c.component_type then some kv.2
        else none
    | none => none)

/-- `CircuitSimulator._read_component`: a Button offers its `pressed`
state (default `False`); every other component type reads as `False`. -/
def read_component (c : Component) (_pin_name : Str) : PyVal :=
  if c.component_type == "Button".data then
    dictGetD c.state "pressed".data (.bool false)
  else .bool false

/-- `CircuitSimulator._affect_component`: only an LED driven at its Anode
is affected; its `on` state becomes the incoming signal value and its
`brightness` becomes 255 or 0 by Python truthiness of the signal.  The
`setBrush` call is visual only. -/
def affect_component (heap : Dict Nat Component) (ref : Nat) (c : Component)
    (pin_name : Str) (signal : PyVal) : Dict Nat Component :=
  if c.component_type == "LED".data then
    if pin_name == "Anode".data then
      let brightness : PyVal := .int (if signal.truthy then 255 else 0)
      let st := dictSet (dictSet c.state "on".data signal) "brightness".data brightness
      dictSet heap ref { c with state := st }
    else heap
  else heap

/-- One wire of the `_propagate_signals` loop.  All model wires have the
wire attributes, so the `hasattr` guard always passes; `get_pin_by_name`
applied to a `None` pin name returns `None` in Python (no pin's name
equals `None`), which the option match reproduces. -/
def Sim.stepWire (ard : Nat) (s : Sim) (w : Wire) : Sim :=
  match w.start_component, w.end_component with
  | some scRef, some ecRef =>
    match dictGet s.heap scRef, dictGet s.heap ecRef with
    | some scomp, some ecomp =>
      let sp := match w.start_pin_name with
                | some n => scomp.get_pin_by_name n
                | none => none
      let ep := match w.end_pin_name with
                | some n => ecomp.get_pin_by_name n
                | none => none
      match sp, ep with
      | some spin, some epin =>
        if scRef == ard then
          if dictMem s.arduino_pins spin.name then
            let signal := dictGetD s.arduino_pins spin.name (.bool false)
            let h := affect_component s.heap ecRef ecomp epin.name signal
            { s with heap := h }
          else s
        else if ecRef == ard then
          if dictMem s.arduino_pins epin.name then
            let v := read_component scomp spin.name
            let t := dictSet s.arduino_pins epin.name v
            { s with arduino_pins := t }
          else s
        else s
      | _, _ => s
    | _, _ => s
  | _, _ => s

/-- `CircuitSimulator._propagate_signals`: find the arduino (no-op when
absent), then a single in-order pass over the wires. -/
def Sim.propagate_signals (s : Sim) : Sim :=
  match s.findArduino with
  | none => s
  | some ard => s.wires.foldl (Sim.stepWire ard) s

/-- `CircuitSimulator.set_pin`: write the value into whichever table knows
the pin name (digital first), then propagate. -/
def Sim.set_pin (s : Sim) (pin_name : Str) (value : PyVal) : Sim :=
  let s1 :=
    if dictMem s.arduino_pins pin_name then
      { s with arduino_pins := dictSet s.arduino_pins pin_name value }
    else if dictMem s.analog_pins pin_name then
      { s with analog_pins := dictSet s.analog_pins pin_name value }
    else s
  s1.propagate_signals

/-! ## Code interpreter (`CircuitSimulator.execute_code`)

The two statement patterns of the source are
`digitalWrite\s*\(\s*(\w+)\s*,\s*(\w+)\s*\)` and
`analogWrite\s*\(\s*(\w+)\s*,\s*(\d+)\s*\)`, applied with `re.search`
(leftmost match) to each stripped line.  Both patterns are a literal word
followed by punctuation and greedy character-class groups whose classes
are disjoint from the following expected characters, so backtracking can
never rescue a failed maximal munch: at a given start position the
pattern matches exactly when the deterministic maximal-munch parse
`parseArgs` succeeds, and `re.search` is the scan `searchPat` that tries
each start position from the left.  Character classes are the ASCII parts
of Python's `\w`, `\d` and `\s`; the simulator core only ever deals in
ASCII text. -/

/-- ASCII `\w`: letters, digits and underscore. -/
def isWordChar (c : Char) : Bool := c.isAlphanum || c == '_'

/-- ASCII `\s` (also the characters stripped by `str.strip`). -/
def isSpaceChar (c : Char) : Bool :=
  c == ' ' || c == '\t' || c == '\n' || c == '\r' || c == '\x0b' || c == '\x0c'

/-- Python `line.strip()`. -/
def stripChars (xs : Str) : Str :=
  ((xs.dropWhile isSpaceChar).reverse.dropWhile isSpaceChar).reverse

/-- Python `code.split('\n')` (empty pieces preserved). -/
def splitNl : Str → List Str
  | [] => [[]]
  | c :: cs =>
    if c == '\n' then [] :: splitNl cs
    else
      match splitNl cs with
      | [] => [[c]]
      | l :: ls => (c :: l) :: ls

/-- Maximal-munch parse of `\s*\(\s*(\w+)\s*,\s*(cls+)\s*\)` — the tail of
both statement patterns after the literal function name; returns the two
captured groups. -/
def parseArgs (cls : Char → Bool) (xs : Str) : Option (Str × Str) :=
  match xs.dropWhile isSpaceChar with
  | [] => none
  | c :: r1 =>
    if c == '(' then
      let r1' := r1.dropWhile isSpaceChar
      let g1 := r1'.takeWhile isWordChar
      if g1.isEmpty then none
      else
        match (r1'.dropWhile isWordChar).dropWhile isSpaceChar with
        | [] => none
        | c2 :: r2 =>
          if c2 == ',' then
            let r2' := r2.dropWhile isSpaceChar
            let g2 := r2'.takeWhile cls
            if g2.isEmpty then none
            else
              match (r2'.dropWhile cls).dropWhile isSpaceChar with
              | [] => none
              | c3 :: _ => if c3 == ')' then some (g1, g2) else none
          else none
    else none

/-- `re.search` for a pattern `lit` followed by the argument tail: try each
start position from the left, succeeding at the first position where the
literal matches and the tail parses. -/
def searchPat (lit : Str) (cls : Char → Bool) : Str → Option (Str × Str)
  | [] => none
  | c :: cs =>
    if lit.isPrefixOf (c :: cs) then
      match parseArgs cls (List.drop lit.length (c :: cs)) with
      | some r => some r
      | none => searchPat lit cls cs
    else searchPat lit cls cs

/-- Python `int` on the digit string captured by `\d+`. -/
def digitsToNat (ds : Str) : Nat :=
  ds.foldl (fun a c => a * 10 + (c.toNat - '0'.toNat)) 0

/-- One line of `execute_code`: strip, then the `'digitalWrite' in line`
branch, then the `elif 'analogWrite' in line` branch; a successful match
writes through `set_pin` only when the captured pin name is a key of the
digital table. -/
def Sim.execLine (s : Sim) (rawLine : Str) : Sim :=
  let line := stripChars rawLine
  if containsSub "digitalWrite".data line then
    match searchPat "digitalWrite".data isWordChar line with
    | some (pin, value) =>
      if dictMem s.arduino_pins pin then
        s.set_pin pin (.bool (value == "HIGH".data))
      else s
    | none => s
  else if containsSub "analogWrite".data line then
    match searchPat "analogWrite".data Char.isDigit line with
    | some (pin, value) =>
      if dictMem s.arduino_pins pin then
        s.set_pin pin (.bool (decide (digitsToNat value > 127)))
      else s
    | none => s
  else s

/-- `CircuitSimulator.execute_code`: process every line in order.  (The
write-only `self.code` / `self.running` bookkeeping is omitted, see the
header note.) -/
def Sim.execute_code (s : Sim) (code : Str) : Sim :=
  (splitNl code).foldl Sim.execLine s

/-! ## Generic dictionary lemmas -/

theorem dictGet_dictSet_self [BEq α] [LawfulBEq α] (d : Dict α β) (k : α)
    (v : β) : dictGet (dictSet d k v) k = some v := by
  induction d with
  | nil => simp [dictSet, dictGet]
  | cons kv t ih =>
    obtain ⟨k', v'⟩ := kv
    by_cases h : k' == k
    · simp [dictSet, h, dictGet]
    · simp [dictSet, h, dictGet, ih]

theorem dictGet_dictSet_ne [BEq α] [LawfulBEq α] (d : Dict α β) (k q : α)
    (v : β) (h : ¬ k = q) : dictGet (dictSet d k v) q = dictGet d q := by
  induction d with
  | nil =>
    simp only [dictSet, dictGet]
    have : (k == q) = false := by simp [h]
    simp [this]
  | cons kv t ih =>
    obtain ⟨k', v'⟩ := kv
    by_cases h' : k' == k
    · have hk : k' = k := by simpa using h'
      subst hk
      have : (k' == q) = false := by simp [h]
      simp [dictSet, dictGet, this]
    · simp [dictSet, h', dictGet, ih]

theorem dictMem_dictSet [BEq α] [LawfulBEq α] (d : Dict α β) (k q : α)
    (v : β) : dictMem (dictSet d k v) q = (k == q || dictMem d q) := by
  by_cases h : k = q
  · subst h
    simp [dictMem, dictGet_dictSet_self]
  · have : (k == q) = false := by simp [h]
    simp [dictMem, dictGet_dictSet_ne d k q v h, this]

theorem dictKeys_dictSet_of_mem [BEq α] [LawfulBEq α] (d : Dict α β)
    (k : α) (v : β) (h : dictMem d k = true) :
    dictKeys (dictSet d k v) = dictKeys d := by
  induction d with
  | nil => simp [dictMem, dictGet] at h
  | cons kv t ih =>
    obtain ⟨k', v'⟩ := kv
    by_cases h' : k' = k
    · subst h'
      simp [dictSet, dictKeys]
    · have hb : (k' == k) = false := by simp [h']
      have hm : dictMem t k = true := by
        simpa [dictMem, dictGet, hb] using h
      have h2 := ih hm
      simp only [dictSet, hb, Bool.false_eq_true, if_false]
      simpa [dictKeys] using h2

/-! ## Shared scenario components

Concrete components built exactly as the design surface builds them:
`CADCanvas.add_component` instantiates `ComponentItem(component_type, x, y)`
with the default geometry `width=100, height=80`. -/

/-- A controller board with the default canvas geometry. -/
def boardDefault : Component :=
  mkComponentItem "Arduino Uno".data (some "Arduino Uno_0".data) 100 80

/-- A controller board drawn tall enough that the right-bank digital pins
(`D8`–`D13`) all materialise. -/
def boardTall : Component :=
  mkComponentItem "Arduino Uno".data (some "Arduino Uno_0".data) 100 200

/-- An LED with its initial state. -/
def ledDefault : Component :=
  mkComponentItem "LED".data (some "LED_0".data) 100 80

/-- A button with its initial (unpressed) state. -/
def buttonDefault : Component :=
  mkComponentItem "Button".data (some "Button_0".data) 100 80

/-- A button whose `pressed` state has been driven to `True`. -/
def buttonPressed : Component :=
  { buttonDefault with state := [("pressed".data, PyVal.bool true)] }

/-! ## Claim C5 — pin compatibility -/

/-- Claim C5, counterexample.  The claim states that a ground-type pin can
connect to a pin of any kind, including a power pin of any name.  In the
source, `can_connect_to` demands equal names as soon as *either* pin is
power-typed, so the ground pin `GND` cannot connect to the power pin `5V`:
the predicate returns `false` where the claim requires `true`. -/
theorem C5_counterexample :
    Pin.can_connect_to ⟨"GND".data, "gnd".data⟩ ⟨"5V".data, "power".data⟩
      = false := by decide

/-- Claim C5, amended.  `can_connect_to p q` returns `true` unless at
least one of the two pins is power-typed and the names differ; in
particular two power pins named `5V` and `3.3V` fail the check, and a
ground-type pin connects to a power pin only when the names coincide. -/
theorem C5_amended (p q : Pin) :
    p.can_connect_to q =
      (!(p.pin_type == "power".data || q.pin_type == "power".data)
        || (p.name == q.name))
    ∧ Pin.can_connect_to ⟨"5V".data, "power".data⟩ ⟨"3.3V".data, "power".data⟩
        = false := by
  refine ⟨?_, by decide⟩
  unfold Pin.can_connect_to
  by_cases h : (p.pin_type == "power".data || q.pin_type == "power".data)
  · simp [h]
  · simp [h]

/-! ## Claim C7 — wire construction never validates -/

/-- Claim C7, counterexample.  The claim states that constructing a wire
whose endpoint pins fail `can_connect_to` signals a ValidationError rather
than silently creating the link.  `WireItem.__init__` contains no
validation whatsoever: with the incompatible power pins `5V` and `3.3V`
(the compatibility check fails) the wire is still silently created with
both endpoints fixed. -/
theorem C7_counterexample :
    Pin.can_connect_to ⟨"5V".data, "power".data⟩ ⟨"3.3V".data, "power".data⟩
        = false
    ∧ WireItem_init (some 0) (some "5V".data) (some 1) (some "3.3V".data)
        = ⟨some 0, some "5V".data, some 1, some "3.3V".data⟩ :=
  ⟨by decide, rfl⟩

/-- Claim C7, amended.  Constructing a wire performs no validation at all:
whatever the endpoints — whether or not the named pins exist on their
components and whether or not they satisfy `can_connect_to` — the wire is
created with exactly the given endpoints, and completing a wire on the
canvas stores the second endpoint just as unconditionally.  No
ValidationError condition exists in the code. -/
theorem C7_amended (sc ec : Option Nat) (sp ep : Option Str)
    (w : Wire) (comp : Nat) (pin : Str) :
    WireItem_init sc sp ec ep
      = { start_component := sc, start_pin_name := sp
          end_component := ec, end_pin_name := ep }
    ∧ completeWire w comp pin
      = { w with end_component := some comp, end_pin_name := some pin } :=
  ⟨rfl, rfl⟩

/-! ## Claim C8 — pins of a default-geometry controller board -/

/-- Claim C8, counterexample.  The claim states that a controller board
constructed with the default design-surface geometry owns pins `D0`–`D13`,
`A0`–`A5`, `5V`, `3.3V`, `GND` and `VIN`, so that `get_pin_by_name`
succeeds for each.  With the default geometry (`width=100, height=80`) the
guards `pin_y < height - 10` clip the layout: `get_pin_by_name` fails on
`D13`. -/
theorem C8_counterexample :
    boardDefault.get_pin_by_name "D13".data = none := by decide

/-- Claim C8, amended.  With the default geometry used by the design
surface (`ComponentItem(component_type, x, y)` with `width=100,
height=80`), the geometry guards of `_create_pins` leave the board exactly
the pins `D0`–`D2` (left digital bank), `D8`–`D10` (right digital bank)
and `A0`–`A5` (analog); no power pin survives the guard, and `3.3V`/`VIN`
are not generated for any geometry. -/
theorem C8_amended :
    boardDefault.pins.map (fun p => (p.name, p.pin_type)) =
      [("D0".data, "digital".data), ("D1".data, "digital".data),
       ("D2".data, "digital".data), ("D8".data, "digital".data),
       ("D9".data, "digital".data), ("D10".data, "digital".data),
       ("A0".data, "analog".data), ("A1".data, "analog".data),
       ("A2".data, "analog".data), ("A3".data, "analog".data),
       ("A4".data, "analog".data), ("A5".data, "analog".data)] := by decide

/-! ## Claim C6 — executing with no circuit loaded -/

/-- Claim C6, counterexample.  The claim states that on a fresh simulator
(no `load_circuit`) `execute_code("digitalWrite(D13, HIGH)")` leaves the
board's pin-state table identical to its initial value.  In the source,
`set_pin` still writes the simulator's own table — only the propagation is
a no-op — so the `D13` entry flips from `False` to `True`. -/
theorem C6_counterexample :
    dictGet (Sim.init.execute_code "digitalWrite(D13, HIGH)".data).arduino_pins
        "D13".data = some (.bool true)
    ∧ dictGet Sim.init.arduino_pins "D13".data = some (.bool false) := by
  decide

/-- Claim C6, amended.  Running `execute_code` with no circuit loaded
raises no exception (the model is a total function, as the source has no
raise path) and performs no propagation: components, wires, heap and the
analog table are untouched.  The simulator's own digital pin-state table
is still written, however: after `execute_code("digitalWrite(D13, HIGH)")`
on a fresh simulator the table holds `D13 = True`. -/
theorem C6_amended :
    (Sim.init.execute_code "digitalWrite(D13, HIGH)".data).components
        = Sim.init.components
    ∧ (Sim.init.execute_code "digitalWrite(D13, HIGH)".data).wires
        = Sim.init.wires
    ∧ (Sim.init.execute_code "digitalWrite(D13, HIGH)".data).heap
        = Sim.init.heap
    ∧ (Sim.init.execute_code "digitalWrite(D13, HIGH)".data).analog_pins
        = Sim.init.analog_pins
    ∧ (Sim.init.execute_code "digitalWrite(D13, HIGH)".data).arduino_pins
        = dictSet Sim.init.arduino_pins "D13".data (.bool true) := by
  decide

/-! ## Helper lemmas about pin lookup and loading -/

theorem get_pin_by_name_name (c : Component) (n : Str) (p : Pin)
    (h : c.get_pin_by_name n = some p) : p.name = n := by
  have := List.find?_some h
  simpa using this

/-! ## Claims C2 and C3 — wire propagation to and from the board -/

/-- The board–LED circuit of claim C2, with the board's pins and both
components' state bags left arbitrary: a board (id `b`, heap ref 0) wired
from its `D13` pin to the `Anode` pin of an LED (id `l`, heap ref 1). -/
def ledScenario (btype : Str) (bpins lpins : List Pin)
    (bprops bstate lprops lstate : Dict Str PyVal) : Sim :=
  Sim.init.load_circuit
    [(0, ⟨btype, some "b".data, bpins, bprops, bstate⟩),
     (1, ⟨"LED".data, some "l".data, lpins, lprops, lstate⟩)]
    [⟨some 0, some "D13".data, some 1, some "Anode".data⟩]

/-- Core computation for claim C2: one propagation pass over a state whose
graph is the board–LED scenario drives the LED to the current table value
of `D13` (Python truthiness fixing the brightness). -/
theorem ledScenario_propagate (σ : Sim) (btype : Str) (bpins lpins : List Pin)
    (bprops bstate lprops lstate : Dict Str PyVal)
    (hheap : σ.heap =
      [(0, ⟨btype, some "b".data, bpins, bprops, bstate⟩),
       (1, ⟨"LED".data, some "l".data, lpins, lprops, lstate⟩)])
    (hcomp : σ.components = [(some "b".data, 0), (some "l".data, 1)])
    (hwires : σ.wires =
      [⟨some 0, some "D13".data, some 1, some "Anode".data⟩])
    (hA : containsSub "Arduino".data btype = true)
    (hD : (bpins.find? (fun p => p.name == "D13".data)).isSome = true)
    (hAn : (lpins.find? (fun p => p.name == "Anode".data)).isSome = true)
    (hmem : dictMem σ.arduino_pins "D13".data = true) :
    (dictGet (Sim.propagate_signals σ).heap 1).map
      (fun c => (dictGet c.state "on".data, dictGet c.state "brightness".data))
    = some (some (dictGetD σ.arduino_pins "D13".data (.bool false)),
            some (.int (if (dictGetD σ.arduino_pins "D13".data
                (.bool false)).truthy then 255 else 0))) := by
  obtain ⟨pD, hpD⟩ := Option.isSome_iff_exists.mp hD
  obtain ⟨pAn, hpAn⟩ := Option.isSome_iff_exists.mp hAn
  have hnD : pD.name = "D13".data := by
    simpa using List.find?_some hpD
  have hnAn : pAn.name = "Anode".data := by
    simpa using List.find?_some hpAn
  have hfind : Sim.findArduino σ = some 0 := by
    unfold Sim.findArduino
    rw [hcomp]
    simp [List.findSome?_cons, hheap, dictGet, hA]
  have hprop : Sim.propagate_signals σ = Sim.stepWire 0 σ
      ⟨some 0, some "D13".data, some 1, some "Anode".data⟩ := by
    unfold Sim.propagate_signals
    rw [hfind, hwires]
    rfl
  rw [hprop]
  unfold Sim.stepWire
  simp only [hheap, dictGet, beq_self_eq_true, if_true,
    show ((0 : Nat) == 1) = false from rfl, Bool.false_eq_true, if_false]
  simp only [Component.get_pin_by_name, hpD, hpAn]
  rw [hnD, hnAn]
  simp only [hmem, if_true, affect_component]
  simp only [beq_self_eq_true, if_true]
  simp [dictSet, dictGet, dictGet_dictSet_self,
    dictGet_dictSet_ne _ _ _ _ (show ¬ "brightness".data = "on".data
      by decide)]

/-- Claim C2.  In a circuit containing a controller board and an LED
joined by a wire from (board, `D13`) to (LED, `Anode`) — with the board
actually owning a `D13` pin and the LED an `Anode` pin, as any circuit
drawn on the canvas does — executing `digitalWrite(D13, HIGH)` sets the
LED's `state["on"]` to true and `state["brightness"]` to 255, and
executing `digitalWrite(D13, LOW)` resets them to false and 0. -/
theorem C2_led_propagation (btype : Str) (bpins lpins : List Pin)
    (bprops bstate lprops lstate : Dict Str PyVal)
    (hA : containsSub "Arduino".data btype = true)
    (hD : (bpins.find? (fun p => p.name == "D13".data)).isSome = true)
    (hAn : (lpins.find? (fun p => p.name == "Anode".data)).isSome = true) :
    ((dictGet ((ledScenario btype bpins lpins bprops bstate lprops
        lstate).execute_code "digitalWrite(D13, HIGH)".data).heap 1).map
      (fun c => (dictGet c.state "on".data, dictGet c.state "brightness".data))
      = some (some (.bool true), some (.int 255)))
    ∧ ((dictGet ((ledScenario btype bpins lpins bprops bstate lprops
        lstate).execute_code "digitalWrite(D13, LOW)".data).heap 1).map
      (fun c => (dictGet c.state "on".data, dictGet c.state "brightness".data))
      = some (some (.bool false), some (.int 0))) := by
  constructor
  · exact ledScenario_propagate
      { ledScenario btype bpins lpins bprops bstate lprops lstate with
        arduino_pins :=
          dictSet Sim.init.arduino_pins "D13".data (.bool true) }
      btype bpins lpins bprops bstate lprops lstate rfl rfl rfl
      hA hD hAn
      (by exact (show dictMem (dictSet Sim.init.arduino_pins "D13".data
        (PyVal.bool true)) "D13".data = true by decide))
  · exact ledScenario_propagate
      { ledScenario btype bpins lpins bprops bstate lprops lstate with
        arduino_pins :=
          dictSet Sim.init.arduino_pins "D13".data (.bool false) }
      btype bpins lpins bprops bstate lprops lstate rfl rfl rfl
      hA hD hAn
      (by exact (show dictMem (dictSet Sim.init.arduino_pins "D13".data
        (PyVal.bool false)) "D13".data = true by decide))

/-- Claim C2, witness: the scenario instantiated with a tall-enough board
(so that `D13` exists) and a fresh LED. -/
theorem C2_witness :
    (containsSub "Arduino".data "Arduino Uno".data = true)
    ∧ ((boardTall.pins.find? (fun p => p.name == "D13".data)).isSome = true)
    ∧ ((ledDefault.pins.find? (fun p =>
          p.name == "Anode".data)).isSome = true)
    ∧ ((dictGet ((ledScenario "Arduino Uno".data boardTall.pins
          ledDefault.pins [] [] [] ledDefault.state).execute_code
            "digitalWrite(D13, HIGH)".data).heap 1).map
        (fun c =>
          (dictGet c.state "on".data, dictGet c.state "brightness".data))
        = some (some (.bool true), some (.int 255))) :=
  ⟨by decide, by decide, by decide,
    (C2_led_propagation "Arduino Uno".data boardTall.pins ledDefault.pins
      [] [] [] ledDefault.state (by decide) (by decide) (by decide)).1⟩

/-- The button–board circuit of claim C3: a button (id `bt`, heap ref 0)
wired from its `Pin1` into the `D2` pin of a board (id `b`, heap ref 1). -/
def buttonScenario (btype : Str) (bpins btnpins : List Pin)
    (bprops bstate btnprops btnstate : Dict Str PyVal) : Sim :=
  Sim.init.load_circuit
    [(0, ⟨"Button".data, some "bt".data, btnpins, btnprops, btnstate⟩),
     (1, ⟨btype, some "b".data, bpins, bprops, bstate⟩)]
    [⟨some 0, some "Pin1".data, some 1, some "D2".data⟩]

/-- Core computation for claim C3: one propagation pass over the scenario
wire, with arbitrary pin tables in place, copies the button's `pressed`
state into the board table entry for `D2`. -/
theorem buttonScenario_propagate (σ : Sim) (btype : Str)
    (bpins btnpins : List Pin)
    (bprops bstate btnprops btnstate : Dict Str PyVal)
    (hheap : σ.heap =
      [(0, ⟨"Button".data, some "bt".data, btnpins, btnprops, btnstate⟩),
       (1, ⟨btype, some "b".data, bpins, bprops, bstate⟩)])
    (hcomp : σ.components = [(some "bt".data, 0), (some "b".data, 1)])
    (hwires : σ.wires = [⟨some 0, some "Pin1".data, some 1, some "D2".data⟩])
    (hA : containsSub "Arduino".data btype = true)
    (hP1 : (btnpins.find? (fun p => p.name == "Pin1".data)).isSome = true)
    (hD2 : (bpins.find? (fun p => p.name == "D2".data)).isSome = true)
    (hmem : dictMem σ.arduino_pins "D2".data = true) :
    dictGet (Sim.propagate_signals σ).arduino_pins "D2".data
      = some (dictGetD btnstate "pressed".data (.bool false)) := by
  obtain ⟨p1, hp1⟩ := Option.isSome_iff_exists.mp hP1
  obtain ⟨pD2, hpD2⟩ := Option.isSome_iff_exists.mp hD2
  have hn1 : p1.name = "Pin1".data := by
    simpa using List.find?_some hp1
  have hnD2 : pD2.name = "D2".data := by
    simpa using List.find?_some hpD2
  have hfind : Sim.findArduino σ = some 1 := by
    unfold Sim.findArduino
    rw [hcomp]
    simp [List.findSome?_cons, hheap, dictGet,
      show containsSub "Arduino".data "Button".data = false from rfl, hA]
  have hprop : Sim.propagate_signals σ = Sim.stepWire 1 σ
      ⟨some 0, some "Pin1".data, some 1, some "D2".data⟩ := by
    unfold Sim.propagate_signals
    rw [hfind, hwires]
    rfl
  rw [hprop]
  unfold Sim.stepWire
  simp only [hheap, dictGet, beq_self_eq_true, if_true,
    show ((0 : Nat) == 1) = false from rfl, Bool.false_eq_true, if_false]
  simp only [Component.get_pin_by_name, hp1, hpD2]
  rw [hn1, hnD2]
  simp only [hmem, if_true, read_component]
  simp only [beq_self_eq_true, if_true]
  simp [dictGet_dictSet_self]

/-- Claim C3.  With a button wired from its `Pin1` into board pin `D2`
(the button owning a `Pin1` pin and the board a `D2` pin), every pin write
— `set_pin` with any pin name and value, which is what every recognized
statement triggers — copies the button's `state["pressed"]` into the
board's pin-state table entry for `D2`, defaulting to false when the
`pressed` key is absent. -/
theorem C3_button_read (btype : Str) (bpins btnpins : List Pin)
    (bprops bstate btnprops btnstate : Dict Str PyVal)
    (pin_name : Str) (value : PyVal)
    (hA : containsSub "Arduino".data btype = true)
    (hP1 : (btnpins.find? (fun p => p.name == "Pin1".data)).isSome = true)
    (hD2 : (bpins.find? (fun p => p.name == "D2".data)).isSome = true) :
    dictGet ((buttonScenario btype bpins btnpins bprops bstate btnprops
        btnstate).set_pin pin_name value).arduino_pins "D2".data
      = some (dictGetD btnstate "pressed".data (.bool false)) := by
  simp only [Sim.set_pin]
  split
  · exact buttonScenario_propagate
      { buttonScenario btype bpins btnpins bprops bstate btnprops
          btnstate with
        arduino_pins := dictSet Sim.init.arduino_pins pin_name value }
      btype bpins btnpins bprops bstate btnprops btnstate rfl rfl rfl
      hA hP1 hD2
      (by rw [show ({ buttonScenario btype bpins btnpins bprops bstate
              btnprops btnstate with
            arduino_pins :=
              dictSet Sim.init.arduino_pins pin_name value } :
              Sim).arduino_pins
          = dictSet Sim.init.arduino_pins pin_name value from rfl,
          dictMem_dictSet]
          simp [show dictMem Sim.init.arduino_pins "D2".data = true
            by decide])
  · split
    · exact buttonScenario_propagate
        { buttonScenario btype bpins btnpins bprops bstate btnprops
            btnstate with
          analog_pins := dictSet Sim.init.analog_pins pin_name value }
        btype bpins btnpins bprops bstate btnprops btnstate rfl rfl rfl
        hA hP1 hD2
        (by exact (show dictMem Sim.init.arduino_pins "D2".data = true
          by decide))
    · exact buttonScenario_propagate
        (buttonScenario btype bpins btnpins bprops bstate btnprops btnstate)
        btype bpins btnpins bprops bstate btnprops btnstate rfl rfl rfl
        hA hP1 hD2
        (by exact (show dictMem Sim.init.arduino_pins "D2".data = true
          by decide))

/-- Claim C3, witness: the scenario instantiated with the default-geometry
board (which owns `D2`) and the default button, written through
`set_pin("D13", True)`. -/
theorem C3_witness :
    (containsSub "Arduino".data "Arduino Uno".data = true)
    ∧ ((buttonDefault.pins.find? (fun p =>
          p.name == "Pin1".data)).isSome = true)
    ∧ ((boardDefault.pins.find? (fun p => p.name == "D2".data)).isSome = true)
    ∧ (dictGet ((buttonScenario "Arduino Uno".data boardDefault.pins
          buttonDefault.pins [] [] [] buttonDefault.state).set_pin
            "D13".data (.bool true)).arduino_pins "D2".data
        = some (dictGetD buttonDefault.state "pressed".data (.bool false))) :=
  ⟨by decide, by decide, by decide,
    C3_button_read "Arduino Uno".data boardDefault.pins buttonDefault.pins
      [] [] [] buttonDefault.state "D13".data (.bool true)
      (by decide) (by decide) (by decide)⟩

/-! ## Claim C10 — frame properties of execution -/

/-- One propagation step never touches the analog table, the component
dictionary or the wires, and can only update an existing key of the
digital table (the write is guarded by `in self.arduino_pins`). -/
theorem stepWire_frame (ard : Nat) (s : Sim) (w : Wire) :
    (Sim.stepWire ard s w).analog_pins = s.analog_pins
    ∧ (Sim.stepWire ard s w).components = s.components
    ∧ (Sim.stepWire ard s w).wires = s.wires
    ∧ dictKeys (Sim.stepWire ard s w).arduino_pins
        = dictKeys s.arduino_pins := by
  unfold Sim.stepWire
  dsimp only
  repeat' split
  all_goals refine ⟨rfl, rfl, rfl, ?_⟩
  all_goals try rfl
  all_goals exact dictKeys_dictSet_of_mem _ _ _ (by assumption)

/-- The frame property of `stepWire`, folded over a wire list. -/
theorem foldl_stepWire_frame (ard : Nat) :
    ∀ (ws : List Wire) (s : Sim),
    (ws.foldl (Sim.stepWire ard) s).analog_pins = s.analog_pins
    ∧ (ws.foldl (Sim.stepWire ard) s).components = s.components
    ∧ (ws.foldl (Sim.stepWire ard) s).wires = s.wires
    ∧ dictKeys (ws.foldl (Sim.stepWire ard) s).arduino_pins
        = dictKeys s.arduino_pins := by
  intro ws
  induction ws with
  | nil => exact fun s => ⟨rfl, rfl, rfl, rfl⟩
  | cons w ws ih =>
    intro s
    obtain ⟨h1, h2, h3, h4⟩ := ih (Sim.stepWire ard s w)
    obtain ⟨g1, g2, g3, g4⟩ := stepWire_frame ard s w
    exact ⟨h1.trans g1, h2.trans g2, h3.trans g3, h4.trans g4⟩

/-- The frame property of a whole propagation pass. -/
theorem propagate_frame (s : Sim) :
    (s.propagate_signals).analog_pins = s.analog_pins
    ∧ (s.propagate_signals).components = s.components
    ∧ (s.propagate_signals).wires = s.wires
    ∧ dictKeys (s.propagate_signals).arduino_pins
        = dictKeys s.arduino_pins := by
  unfold Sim.propagate_signals
  split
  · exact ⟨rfl, rfl, rfl, rfl⟩
  · exact foldl_stepWire_frame _ s.wires s

/-- The frame property of `set_pin` when the written pin is a key of the
digital table — which is exactly how `execute_code` calls it. -/
theorem set_pin_frame_of_mem (s : Sim) (p : Str) (v : PyVal)
    (h : dictMem s.arduino_pins p = true) :
    (s.set_pin p v).analog_pins = s.analog_pins
    ∧ (s.set_pin p v).components = s.components
    ∧ (s.set_pin p v).wires = s.wires
    ∧ dictKeys (s.set_pin p v).arduino_pins = dictKeys s.arduino_pins := by
  simp only [Sim.set_pin, h, if_true]
  obtain ⟨h1, h2, h3, h4⟩ := propagate_frame
    { s with arduino_pins := dictSet s.arduino_pins p v }
  exact ⟨h1, h2, h3, h4.trans (dictKeys_dictSet_of_mem _ _ _ h)⟩

/-- The frame property of one interpreted line. -/
theorem execLine_frame (s : Sim) (l : Str) :
    (s.execLine l).analog_pins = s.analog_pins
    ∧ (s.execLine l).components = s.components
    ∧ (s.execLine l).wires = s.wires
    ∧ dictKeys (s.execLine l).arduino_pins = dictKeys s.arduino_pins := by
  unfold Sim.execLine
  dsimp only
  repeat' split
  all_goals first
    | exact ⟨rfl, rfl, rfl, rfl⟩
    | exact set_pin_frame_of_mem s _ _ (by assumption)

/-- The frame property of executing a whole source text, folded over its
lines. -/
theorem foldl_execLine_frame :
    ∀ (ls : List Str) (s : Sim),
    (ls.foldl Sim.execLine s).analog_pins = s.analog_pins
    ∧ (ls.foldl Sim.execLine s).components = s.components
    ∧ (ls.foldl Sim.execLine s).wires = s.wires
    ∧ dictKeys (ls.foldl Sim.execLine s).arduino_pins
        = dictKeys s.arduino_pins := by
  intro ls
  induction ls with
  | nil => exact fun s => ⟨rfl, rfl, rfl, rfl⟩
  | cons l ls ih =>
    intro s
    obtain ⟨h1, h2, h3, h4⟩ := ih (s.execLine l)
    obtain ⟨g1, g2, g3, g4⟩ := execLine_frame s l
    exact ⟨h1.trans g1, h2.trans g2, h3.trans g3, h4.trans g4⟩

/-- Claim C10.  `execute_code` never adds or removes keys of the pin-state
tables and never changes the analog table at all (both recognized
statement forms only write when the pin is already a key of the digital
table, and wire-to-board propagation writes are guarded the same way); it
also leaves the component dictionary and wire list untouched, so only
values of existing digital entries and the state of heap components can
change.  The domains themselves are `D0`–`D13` and `A0`–`A5`: that is how
`__init__` builds the tables, `load_circuit` does not touch them, and key
preservation keeps them that way across every run. -/
theorem C10_frame (s : Sim) (code : Str) (objs : Dict Nat Component)
    (ws : List Wire) :
    (s.execute_code code).analog_pins = s.analog_pins
    ∧ dictKeys (s.execute_code code).arduino_pins = dictKeys s.arduino_pins
    ∧ (s.execute_code code).components = s.components
    ∧ (s.execute_code code).wires = s.wires
    ∧ dictKeys Sim.init.arduino_pins = ARDUINO_DIGITAL_PINS
    ∧ dictKeys Sim.init.analog_pins = ARDUINO_ANALOG_PINS
    ∧ (s.load_circuit objs ws).arduino_pins = s.arduino_pins
    ∧ (s.load_circuit objs ws).analog_pins = s.analog_pins := by
  obtain ⟨h1, h2, h3, h4⟩ := foldl_execLine_frame (splitNl code) s
  exact ⟨h1, h4, h2, h3, by decide, by decide, rfl, rfl⟩

/-! ## String-matching lemmas

These characterize `searchPat` (the `re.search` model) on the line shapes
`digitalWrite(P, HIGH|LOW)` and `analogWrite(P, D)` with an arbitrary
word-character pin token `P` and digit token `D`. -/

theorem space_chars (c : Char) (h : isSpaceChar c = true) :
    c = ' ' ∨ c = '\t' ∨ c = '\n' ∨ c = '\r' ∨ c = '\x0b' ∨ c = '\x0c' := by
  unfold isSpaceChar at h
  simp only [Bool.or_eq_true, beq_iff_eq] at h
  tauto

theorem word_not_space (c : Char) (h : isWordChar c = true) :
    isSpaceChar c = false := by
  cases hsp : isSpaceChar c
  · rfl
  · rcases space_chars c hsp with h' | h' | h' | h' | h' | h' <;>
      subst h' <;> exact absurd h (by decide)

theorem digit_not_space (c : Char) (h : c.isDigit = true) :
    isSpaceChar c = false := by
  have hw : isWordChar c = true := by
    unfold isWordChar
    have : c.isAlphanum = true := by
      unfold Char.isAlphanum
      simp [h]
    simp [this]
  exact word_not_space c hw

theorem isPrefixOf_append_self (l t : Str) :
    l.isPrefixOf (l ++ t) = true := by
  induction l with
  | nil => simp [List.isPrefixOf]
  | cons c l ih => simpa [List.isPrefixOf] using ih

theorem isPrefixOf_nil_true (l : Str) (h : l.isPrefixOf [] = true) :
    l = [] := by
  cases l with
  | nil => rfl
  | cons c t => simp [List.isPrefixOf] at h

theorem isPrefixOf_exists (l : Str) :
    ∀ (xs : Str), l.isPrefixOf xs = true → ∃ t, xs = l ++ t := by
  induction l with
  | nil => exact fun xs _ => ⟨xs, rfl⟩
  | cons c l ih =>
    intro xs h
    cases xs with
    | nil => simp [List.isPrefixOf] at h
    | cons x xs =>
      simp only [List.isPrefixOf, Bool.and_eq_true] at h
      obtain ⟨h1, h2⟩ := h
      obtain ⟨t, ht⟩ := ih xs h2
      exact ⟨t, by simp [ht, (eq_of_beq h1).symm]⟩

theorem takeWhile_dropWhile_append (cls : Char → Bool) (P : Str) (b : Char)
    (t : Str) (hP : ∀ c ∈ P, cls c = true) (hb : cls b = false) :
    (P ++ b :: t).takeWhile cls = P
    ∧ (P ++ b :: t).dropWhile cls = b :: t := by
  induction P with
  | nil => simp [List.takeWhile, List.dropWhile, hb]
  | cons c P ih =>
    have hc : cls c = true := hP c (by simp)
    have ih' := ih (fun d hd => hP d (by simp [hd]))
    simp [List.takeWhile, List.dropWhile, hc, ih'.1, ih'.2]

theorem dropWhile_cons_false (cls : Char → Bool) (b : Char) (t : Str)
    (hb : cls b = false) : (b :: t).dropWhile cls = b :: t := by
  simp [List.dropWhile, hb]

theorem dropWhile_cons_true (cls : Char → Bool) (b : Char) (t : Str)
    (hb : cls b = true) : (b :: t).dropWhile cls = t.dropWhile cls := by
  simp [List.dropWhile_cons, hb]

/-- Stripping a line that starts with a non-space character and ends in a
closing parenthesis is the identity. -/
theorem stripChars_shape (c : Char) (ys : Str) (hc : isSpaceChar c = false) :
    stripChars (c :: (ys ++ [')'])) = c :: (ys ++ [')']) := by
  unfold stripChars
  rw [dropWhile_cons_false _ _ _ hc]
  rw [show (c :: (ys ++ [')'])).reverse = ')' :: (c :: ys).reverse by
    simp]
  rw [dropWhile_cons_false _ _ _ (by decide)]
  simp

/-- A source text with no newline is a single line. -/
theorem splitNl_single (xs : Str) (h : ∀ c ∈ xs, (c == '\n') = false) :
    splitNl xs = [xs] := by
  induction xs with
  | nil => rfl
  | cons c cs ih =>
    have hc : (c == '\n') = false := h c (by simp)
    have ih' := ih (fun d hd => h d (by simp [hd]))
    simp [splitNl, hc, ih']

theorem word_ne_lparen (c : Char) (h : isWordChar c = true) :
    (c == '(') = false := by
  cases hb : (c == '(')
  · rfl
  · exact absurd (eq_of_beq hb ▸ h) (by decide)

theorem searchPat_cons_of_not_prefix (lit : Str) (cls : Char → Bool)
    (x : Char) (xs : Str) (h : lit.isPrefixOf (x :: xs) = false) :
    searchPat lit cls (x :: xs) = searchPat lit cls xs := by
  conv_lhs => unfold searchPat
  rw [if_neg (by simp [h])]

theorem searchPat_cons_parse_none (lit : Str) (cls : Char → Bool)
    (x : Char) (xs : Str)
    (h : parseArgs cls (List.drop lit.length (x :: xs)) = none) :
    searchPat lit cls (x :: xs) = searchPat lit cls xs := by
  conv_lhs => unfold searchPat
  by_cases hp : lit.isPrefixOf (x :: xs) = true
  · rw [if_pos hp, h]
  · rw [if_neg hp]

theorem searchPat_cons_ne (c0 : Char) (l' : Str) (cls : Char → Bool)
    (x : Char) (xs : Str) (h : (c0 == x) = false) :
    searchPat (c0 :: l') cls (x :: xs) = searchPat (c0 :: l') cls xs :=
  searchPat_cons_of_not_prefix _ _ _ _ (by simp [List.isPrefixOf, h])

theorem searchPat_skip_all (c0 : Char) (l' : Str) (cls : Char → Bool) :
    ∀ (pre xs : Str), (∀ x ∈ pre, (c0 == x) = false) →
    searchPat (c0 :: l') cls (pre ++ xs) = searchPat (c0 :: l') cls xs := by
  intro pre
  induction pre with
  | nil => exact fun xs _ => rfl
  | cons p pre ih =>
    intro xs h
    rw [List.cons_append, searchPat_cons_ne _ _ _ _ _ (h p (by simp))]
    exact ih xs (fun x hx => h x (by simp [hx]))

theorem searchPat_none_of_ne (c0 : Char) (l' : Str) (cls : Char → Bool) :
    ∀ (xs : Str), (∀ x ∈ xs, (c0 == x) = false) →
    searchPat (c0 :: l') cls xs = none := by
  intro xs
  induction xs with
  | nil => exact fun _ => rfl
  | cons x xs ih =>
    intro h
    rw [searchPat_cons_ne _ _ _ _ _ (h x (by simp))]
    exact ih (fun y hy => h y (by simp [hy]))

theorem searchPat_found (lit : Str) (cls : Char → Bool) (xs : Str)
    (res : Str × Str) (h1 : lit.isPrefixOf xs = true)
    (h2 : parseArgs cls (List.drop lit.length xs) = some res) :
    searchPat lit cls xs = some res := by
  cases xs with
  | nil =>
    have := isPrefixOf_nil_true lit h1
    subst this
    simp [parseArgs] at h2
  | cons x xs =>
    unfold searchPat
    simp [h1, h2]

theorem containsSub_of_isPrefixOf (n l : Str) (h : n.isPrefixOf l = true) :
    containsSub n l = true := by
  cases l with
  | nil =>
    have := isPrefixOf_nil_true n h
    subst this
    rfl
  | cons x xs => simp [containsSub, h]

theorem containsSub_none_of_ne (c0 : Char) (l' : Str) :
    ∀ (xs : Str), (∀ x ∈ xs, (c0 == x) = false) →
    containsSub (c0 :: l') xs = false := by
  intro xs
  induction xs with
  | nil => exact fun _ => rfl
  | cons x xs ih =>
    intro h
    have hx : (c0 == x) = false := h x (by simp)
    simp only [containsSub, List.isPrefixOf, hx, Bool.false_and,
      Bool.false_or]
    exact ih (fun y hy => h y (by simp [hy]))

theorem parseArgs_nil : parseArgs cls [] = none := rfl

theorem parseArgs_cons_not_lparen (cls : Char → Bool) (y : Char) (t : Str)
    (hy1 : isSpaceChar y = false) (hy2 : (y == '(') = false) :
    parseArgs cls (y :: t) = none := by
  unfold parseArgs
  rw [dropWhile_cons_false _ _ _ hy1]
  simp only [hy2, Bool.false_eq_true, if_false]

/-- The canonical argument tail `(P, G)` — with the exact spacing the
interpreted source lines carry — parses to the two groups. -/
theorem parseArgs_canonical (cls : Char → Bool) (P G : Str)
    (hPne : P ≠ []) (hPw : ∀ c ∈ P, isWordChar c = true)
    (hGne : G ≠ []) (hG : ∀ c ∈ G, cls c = true)
    (hGs : ∀ c ∈ G, isSpaceChar c = false)
    (hGrp : cls ')' = false) :
    parseArgs cls ('(' :: (P ++ (',' :: ' ' :: (G ++ [')']))))
      = some (P, G) := by
  obtain ⟨p0, P', rfl⟩ : ∃ p0 P', P = p0 :: P' := by
    cases P with
    | nil => exact absurd rfl hPne
    | cons p0 P' => exact ⟨p0, P', rfl⟩
  obtain ⟨g0, G', rfl⟩ : ∃ g0 G', G = g0 :: G' := by
    cases G with
    | nil => exact absurd rfl hGne
    | cons g0 G' => exact ⟨g0, G', rfl⟩
  have hsplit := takeWhile_dropWhile_append isWordChar (p0 :: P') ','
    (' ' :: ((g0 :: G') ++ [')'])) hPw (by decide)
  have hsplit2 := takeWhile_dropWhile_append cls (g0 :: G') ')' [] hG hGrp
  have hp0 : isSpaceChar p0 = false := word_not_space p0 (hPw p0 (by simp))
  have hg0 : isSpaceChar g0 = false := hGs g0 (by simp)
  unfold parseArgs
  simp only [List.cons_append] at hsplit hsplit2 ⊢
  rw [dropWhile_cons_false _ _ _ (by decide : isSpaceChar '(' = false)]
  dsimp only
  rw [if_pos (by decide : ('(' == '(') = true)]
  rw [dropWhile_cons_false _ _ _ hp0, hsplit.1, hsplit.2]
  simp only [List.isEmpty_cons, Bool.false_eq_true, if_false]
  rw [dropWhile_cons_false _ _ _ (by decide : isSpaceChar ',' = false)]
  dsimp only
  rw [if_pos (by decide : (',' == ',') = true)]
  rw [dropWhile_cons_true _ _ _ (by decide : isSpaceChar ' ' = true)]
  rw [dropWhile_cons_false _ _ _ hg0, hsplit2.1, hsplit2.2]
  simp only [List.isEmpty_cons, Bool.false_eq_true, if_false]
  rw [dropWhile_cons_false _ _ _ (by decide : isSpaceChar ')' = false)]
  dsimp only
  rw [if_pos (by decide : (')' == ')') = true)]

theorem bool_eq_false {b : Bool} (h : ¬ b = true) : b = false := by
  cases b
  · rfl
  · exact absurd rfl h

/-- Scanning for `digitalWrite` inside a run of word characters that a
comma terminates never matches: an occurrence of the literal inside the
run is followed by a word character or the comma, so the pattern's `(`
fails, and the literal (all letters) cannot straddle the comma. -/
theorem searchPat_digital_skip_word (cls : Char → Bool) :
    ∀ (P : Str), (∀ c ∈ P, isWordChar c = true) → ∀ (rtl : Str),
    searchPat "digitalWrite".data cls (P ++ (',' :: rtl))
      = searchPat "digitalWrite".data cls (',' :: rtl) := by
  intro P
  induction P with
  | nil => exact fun _ _ => rfl
  | cons c P' ih =>
    intro hPw rtl
    rw [List.cons_append]
    have step : searchPat "digitalWrite".data cls
        (c :: (P' ++ (',' :: rtl)))
        = searchPat "digitalWrite".data cls (P' ++ (',' :: rtl)) := by
      by_cases hp : ("digitalWrite".data).isPrefixOf
          (c :: (P' ++ (',' :: rtl))) = true
      · apply searchPat_cons_parse_none
        obtain ⟨t, ht⟩ := isPrefixOf_exists _ _ hp
        rw [ht, List.drop_left]
        have ht' : (c :: P') ++ (',' :: rtl) = "digitalWrite".data ++ t := by
          simpa [List.cons_append] using ht
        by_cases hlen : "digitalWrite".data.length ≤ (c :: P').length
        · have htd : t = List.drop "digitalWrite".data.length (c :: P')
              ++ (',' :: rtl) := by
            have h1 : List.drop "digitalWrite".data.length
                ((c :: P') ++ (',' :: rtl)) = t := by
              rw [ht', List.drop_left]
            rw [← h1, List.drop_append_of_le_length hlen]
          rw [htd]
          cases hq : List.drop "digitalWrite".data.length (c :: P') with
          | nil =>
            rw [List.nil_append]
            exact parseArgs_cons_not_lparen _ _ _ (by decide) (by decide)
          | cons q0 q' =>
            have hq0 : isWordChar q0 = true := by
              have hmem : q0 ∈ c :: P' :=
                List.mem_of_mem_drop (by rw [hq]; simp)
              exact hPw q0 hmem
            rw [List.cons_append]
            exact parseArgs_cons_not_lparen _ _ _ (word_not_space _ hq0)
              (word_ne_lparen _ hq0)
        · exfalso
          have htake : "digitalWrite".data
              = List.take "digitalWrite".data.length
                  ((c :: P') ++ (',' :: rtl)) := by
            rw [ht', List.take_left]
          rw [List.take_append_eq_append_take] at htake
          obtain ⟨k, hk⟩ : ∃ k, "digitalWrite".data.length
              - (c :: P').length = k + 1 := by
            refine ⟨"digitalWrite".data.length - (c :: P').length - 1, ?_⟩
            omega
          rw [hk, List.take_cons_succ] at htake
          have hmem : ',' ∈ "digitalWrite".data := by
            rw [htake]
            simp
          exact absurd hmem (by decide)
      · exact searchPat_cons_of_not_prefix _ _ _ _ (bool_eq_false hp)
    rw [step]
    exact ih (fun d hd => hPw d (by simp [hd])) rtl

theorem word_ne_newline (c : Char) (h : isWordChar c = true) :
    (c == '\n') = false := by
  cases hb : (c == '\n')
  · rfl
  · exact absurd (eq_of_beq hb ▸ h) (by decide)

/-- Stripping a line whose first and last characters are not whitespace is
the identity. -/
theorem stripChars_eq_self (xs : Str)
    (h1 : ∀ c, xs.head? = some c → isSpaceChar c = false)
    (h2 : ∀ c, xs.getLast? = some c → isSpaceChar c = false) :
    stripChars xs = xs := by
  unfold stripChars
  have hd : xs.dropWhile isSpaceChar = xs := by
    cases xs with
    | nil => rfl
    | cons a t => exact dropWhile_cons_false _ _ _ (h1 a rfl)
  rw [hd]
  have hrev : xs.reverse.dropWhile isSpaceChar = xs.reverse := by
    cases hx : xs.reverse with
    | nil => rfl
    | cons a t =>
      have hlast : xs.getLast? = some a := by
        rw [← List.head?_reverse, hx]
        rfl
      exact dropWhile_cons_false _ _ _ (h2 a hlast)
  rw [hrev, List.reverse_reverse]

/-- Executing the single line `digitalWrite(P, G)` for nonempty word
tokens `P` and `G` reduces to the guarded `set_pin` call of the
interpreter: the pattern matches with groups `P` and `G`, and the write
happens exactly when `P` is a key of the digital table. -/
theorem exec_digital_line_gen (s : Sim) (P G : Str)
    (hPne : P ≠ []) (hPw : ∀ c ∈ P, isWordChar c = true)
    (hGne : G ≠ []) (hGw : ∀ c ∈ G, isWordChar c = true) :
    s.execute_code ("digitalWrite(".data
        ++ (P ++ (", ".data ++ (G ++ ")".data))))
    = if dictMem s.arduino_pins P then
        s.set_pin P (.bool (G == "HIGH".data))
      else s := by
  have hnl : ∀ c ∈ "digitalWrite(".data ++ (P ++ (", ".data
      ++ (G ++ ")".data))), (c == '\n') = false := by
    intro c hc
    rcases List.mem_append.mp hc with h | h
    · exact (by decide : ∀ x ∈ "digitalWrite(".data, (x == '\n') = false) c h
    rcases List.mem_append.mp h with h | h
    · exact word_ne_newline c (hPw c h)
    rcases List.mem_append.mp h with h | h
    · exact (by decide : ∀ x ∈ ", ".data, (x == '\n') = false) c h
    rcases List.mem_append.mp h with h | h
    · exact word_ne_newline c (hGw c h)
    · exact (by decide : ∀ x ∈ ")".data, (x == '\n') = false) c h
  have hstrip : stripChars ("digitalWrite(".data ++ (P ++ (", ".data
      ++ (G ++ ")".data))))
      = "digitalWrite(".data ++ (P ++ (", ".data ++ (G ++ ")".data))) := by
    apply stripChars_eq_self
    · intro c hc
      cases hc
      decide
    · intro c hc
      simp only [List.getLast?_append,
        show ((")".data : Str)).getLast? = some ')' from rfl,
        Option.or_some] at hc
      cases hc
      decide
  have hpre : ("digitalWrite".data).isPrefixOf
      ("digitalWrite(".data ++ (P ++ (", ".data ++ (G ++ ")".data))))
      = true :=
    isPrefixOf_append_self "digitalWrite".data
      ('(' :: (P ++ (',' :: ' ' :: (G ++ [')']))))
  have hsearch : searchPat "digitalWrite".data isWordChar
      ("digitalWrite(".data ++ (P ++ (", ".data ++ (G ++ ")".data))))
      = some (P, G) := by
    apply searchPat_found _ _ _ _ hpre
    exact parseArgs_canonical isWordChar P G hPne hPw hGne hGw
      (fun c hcm => word_not_space c (hGw c hcm)) (by decide)
  have hcont := containsSub_of_isPrefixOf _ _ hpre
  unfold Sim.execute_code
  rw [splitNl_single _ hnl]
  show Sim.execLine s _ = _
  unfold Sim.execLine
  dsimp only
  rw [hstrip, hcont, hsearch]
  rfl

/-- The `HIGH`/`LOW` instance of `exec_digital_line_gen`. -/
theorem exec_digital_line (s : Sim) (P : Str) (V : Bool)
    (hPne : P ≠ []) (hPw : ∀ c ∈ P, isWordChar c = true) :
    s.execute_code ("digitalWrite(".data
        ++ (P ++ (if V then ", HIGH)".data else ", LOW)".data)))
    = if dictMem s.arduino_pins P then s.set_pin P (.bool V) else s := by
  cases V
  · exact exec_digital_line_gen s P "LOW".data hPne hPw (by decide)
      (by decide)
  · exact exec_digital_line_gen s P "HIGH".data hPne hPw (by decide)
      (by decide)

/-- A propagation step leaves the table entry for `P` alone when the
wire's end-pin name is not `P` (the only table write targets the resolved
end pin, whose name equals the wire's end-pin name). -/
theorem stepWire_tbl_preserved (ard : Nat) (s : Sim) (w : Wire) (P : Str)
    (h : w.end_pin_name ≠ some P) :
    dictGet (Sim.stepWire ard s w).arduino_pins P
      = dictGet s.arduino_pins P := by
  rcases w with ⟨wsc, wsp, wec, wep⟩
  cases wep with
  | none =>
    unfold Sim.stepWire
    dsimp only
    repeat' split
    all_goals first | rfl | simp_all
  | some n =>
    have hn : ¬ n = P := by
      intro he
      exact h (by rw [he])
    unfold Sim.stepWire
    dsimp only
    repeat' split
    all_goals try rfl
    all_goals
      apply dictGet_dictSet_ne
    all_goals
      intro he
      apply hn
      rw [← he]
      exact (get_pin_by_name_name _ _ _ (by assumption)).symm

/-- Key preservation for a whole pass over the wire list. -/
theorem foldl_tbl_preserved (ard : Nat) :
    ∀ (ws : List Wire) (s : Sim) (P : Str),
    (∀ w ∈ ws, w.end_pin_name ≠ some P) →
    dictGet (ws.foldl (Sim.stepWire ard) s).arduino_pins P
      = dictGet s.arduino_pins P := by
  intro ws
  induction ws with
  | nil => exact fun s P _ => rfl
  | cons w ws ih =>
    intro s P h
    rw [List.foldl_cons,
      ih (Sim.stepWire ard s w) P (fun w' hw' => h w' (by simp [hw'])),
      stepWire_tbl_preserved ard s w P (h w (by simp))]

/-- A propagation pass leaves the table entry for `P` alone when no wire
names `P` as its end pin. -/
theorem propagate_tbl_preserved (s : Sim) (P : Str)
    (h : ∀ w ∈ s.wires, w.end_pin_name ≠ some P) :
    dictGet (s.propagate_signals).arduino_pins P
      = dictGet s.arduino_pins P := by
  unfold Sim.propagate_signals
  split
  · rfl
  · exact foldl_tbl_preserved _ s.wires s P h

/-- Claim C1, amended.  For a recognized digital pin name `P` (a nonempty
word token), executing the line `digitalWrite(P, HIGH)` or
`digitalWrite(P, LOW)` sets the board's pin-state table entry for `P` to
true resp. false — provided no loaded wire has `P` as its board-end pin
name, since the propagation triggered by the very write would otherwise
overwrite the entry with the wire's component read-back (see the
counterexample).  If `P` is not a key of the table, the simulator state is
left entirely unchanged, whatever the circuit. -/
theorem C1_amended (s : Sim) (P : Str) (V : Bool)
    (hPne : P ≠ []) (hPw : ∀ c ∈ P, isWordChar c = true)
    (hwires : ∀ w ∈ s.wires, w.end_pin_name ≠ some P) :
    (dictMem s.arduino_pins P = true →
      dictGet ((s.execute_code ("digitalWrite(".data ++ (P
          ++ (if V then ", HIGH)".data else ", LOW)".data)))).arduino_pins) P
        = some (.bool V))
    ∧ (dictMem s.arduino_pins P = false →
      s.execute_code ("digitalWrite(".data ++ (P
          ++ (if V then ", HIGH)".data else ", LOW)".data))) = s) := by
  rw [exec_digital_line s P V hPne hPw]
  constructor
  · intro hmem
    rw [if_pos hmem]
    unfold Sim.set_pin
    dsimp only
    rw [hmem, if_pos rfl]
    rw [propagate_tbl_preserved
      { s with arduino_pins := dictSet s.arduino_pins P (.bool V) }
      P hwires]
    exact dictGet_dictSet_self _ _ _
  · intro hmem
    rw [if_neg (by simp [hmem])]

/-- Claim C1 (amended), witness: the fresh simulator (no wires), pin
`D13`, value `HIGH`. -/
theorem C1_witness :
    ("D13".data ≠ [])
    ∧ (∀ c ∈ "D13".data, isWordChar c = true)
    ∧ (∀ w ∈ Sim.init.wires, w.end_pin_name ≠ some "D13".data)
    ∧ (dictMem Sim.init.arduino_pins "D13".data = true)
    ∧ (dictGet ((Sim.init.execute_code ("digitalWrite(".data
          ++ ("D13".data ++ ", HIGH)".data))).arduino_pins) "D13".data
        = some (.bool true)) :=
  ⟨by decide, by decide, by simp [Sim.init], by decide,
    (C1_amended Sim.init "D13".data true (by decide) (by decide)
      (by simp [Sim.init])).1 (by decide)⟩

theorem digit_ne_newline (c : Char) (h : c.isDigit = true) :
    (c == '\n') = false := by
  cases hb : (c == '\n')
  · rfl
  · exact absurd (eq_of_beq hb ▸ h) (by decide)

theorem ne_beq_of_digit (x : Char) (hx : x.isDigit = false) :
    ∀ c, c.isDigit = true → (x == c) = false := by
  intro c hc
  cases hb : (x == c)
  · rfl
  · exact absurd (eq_of_beq hb ▸ hc) (by simp [hx])

theorem dictMem_mem_keys [BEq α] [LawfulBEq α] (d : Dict α β) (k : α)
    (h : dictMem d k = true) : k ∈ dictKeys d := by
  induction d with
  | nil => simp [dictMem, dictGet] at h
  | cons kv t ih =>
    obtain ⟨k', v'⟩ := kv
    by_cases h' : k' == k
    · have : k' = k := by simpa using h'
      simp [dictKeys, this]
    · have hb : (k' == k) = false := bool_eq_false h'
      have hm : dictMem t k = true := by
        simpa [dictMem, dictGet, hb] using h
      simp [dictKeys]
      exact Or.inr (by simpa [dictKeys] using ih hm)

/-- A line on which both statement patterns fail to match leaves the
simulator untouched. -/
theorem execLine_noop (s : Sim) (l : Str)
    (hd : searchPat "digitalWrite".data isWordChar (stripChars l) = none)
    (ha : searchPat "analogWrite".data Char.isDigit (stripChars l) = none) :
    s.execLine l = s := by
  unfold Sim.execLine
  dsimp only
  rw [hd, ha]
  by_cases h1 : containsSub "digitalWrite".data (stripChars l) = true
  · rw [if_pos h1]
  · rw [if_neg h1]
    by_cases h2 : containsSub "analogWrite".data (stripChars l) = true
    · rw [if_pos h2]
    · rw [if_neg h2]

theorem parseArgs_after_lparen_comma (cls : Char → Bool) (r : Str) :
    parseArgs cls ('(' :: (',' :: r)) = none := by
  unfold parseArgs
  rw [dropWhile_cons_false _ _ _ (by decide : isSpaceChar '(' = false)]
  dsimp only
  rw [if_pos (by decide : ('(' == '(') = true)]
  rw [dropWhile_cons_false _ _ _ (by decide : isSpaceChar ',' = false)]
  rw [show List.takeWhile isWordChar (',' :: r) = [] from by
    simp [List.takeWhile_cons, (by decide : isWordChar ',' = false)]]
  rfl

/-- With an empty pin token the analog pattern fails to match anywhere in
the line `analogWrite(, D)`. -/
theorem searchAnalog_empty_pin (D : Str) (hD : ∀ c ∈ D, c.isDigit = true) :
    searchPat "analogWrite".data Char.isDigit
      ("analogWrite(, ".data ++ (D ++ ")".data)) = none := by
  rw [show searchPat "analogWrite".data Char.isDigit
      ("analogWrite(, ".data ++ (D ++ ")".data))
    = searchPat "analogWrite".data Char.isDigit
        ("nalogWrite(, ".data ++ (D ++ ")".data)) from
    searchPat_cons_parse_none _ _ 'a' ("nalogWrite(, ".data ++ (D ++ ")".data))
      (parseArgs_after_lparen_comma _ _)]
  rw [show searchPat "analogWrite".data Char.isDigit
      ("nalogWrite(, ".data ++ (D ++ ")".data))
    = searchPat "analogWrite".data Char.isDigit
        ("alogWrite(, ".data ++ (D ++ ")".data)) from
    searchPat_cons_ne 'a' "nalogWrite".data _ 'n'
      ("alogWrite(, ".data ++ (D ++ ")".data)) (by decide)]
  rw [show searchPat "analogWrite".data Char.isDigit
      ("alogWrite(, ".data ++ (D ++ ")".data))
    = searchPat "analogWrite".data Char.isDigit
        ("logWrite(, ".data ++ (D ++ ")".data)) from
    searchPat_cons_of_not_prefix _ _ 'a'
      ("logWrite(, ".data ++ (D ++ ")".data)) rfl]
  rw [show searchPat "analogWrite".data Char.isDigit
      ("logWrite(, ".data ++ (D ++ ")".data))
    = searchPat "analogWrite".data Char.isDigit (D ++ ")".data) from
    searchPat_skip_all 'a' "nalogWrite".data _ "logWrite(, ".data
      (D ++ ")".data) (by decide)]
  apply searchPat_none_of_ne
  intro x hx
  rcases List.mem_append.mp hx with h | h
  · exact ne_beq_of_digit 'a' (by decide) x (hD x h)
  · have hx' : x = ')' := by simpa using h
    subst hx'
    decide

/-- The stripped form of the analog statement line is itself. -/
theorem stripChars_analog_line (P D : Str) :
    stripChars ("analogWrite(".data ++ (P ++ (", ".data ++ (D ++ ")".data))))
      = "analogWrite(".data ++ (P ++ (", ".data ++ (D ++ ")".data))) := by
  apply stripChars_eq_self
  · intro c hc
    cases hc
    decide
  · intro c hc
    simp only [List.getLast?_append,
      show ((")".data : Str)).getLast? = some ')' from rfl,
      Option.or_some] at hc
    cases hc
    decide

/-- Newline-freedom of the analog statement line. -/
theorem no_newline_analog_line (P D : Str)
    (hPw : ∀ c ∈ P, isWordChar c = true)
    (hD : ∀ c ∈ D, c.isDigit = true) :
    ∀ c ∈ "analogWrite(".data ++ (P ++ (", ".data ++ (D ++ ")".data))),
      (c == '\n') = false := by
  intro c hc
  rcases List.mem_append.mp hc with h | h
  · exact (by decide : ∀ x ∈ "analogWrite(".data, (x == '\n') = false) c h
  rcases List.mem_append.mp h with h | h
  · exact word_ne_newline c (hPw c h)
  rcases List.mem_append.mp h with h | h
  · exact (by decide : ∀ x ∈ ", ".data, (x == '\n') = false) c h
  rcases List.mem_append.mp h with h | h
  · exact digit_ne_newline c (hD c h)
  · exact (by decide : ∀ x ∈ ")".data, (x == '\n') = false) c h

/-- The digital pattern never matches inside the analog statement line:
any occurrence of the literal would have to sit inside the word token `P`,
where the following character can never be the required `(`. -/
theorem searchDigital_on_analog_line (P D : Str)
    (hPw : ∀ c ∈ P, isWordChar c = true)
    (hD : ∀ c ∈ D, c.isDigit = true) :
    searchPat "digitalWrite".data isWordChar
      ("analogWrite(".data ++ (P ++ (", ".data ++ (D ++ ")".data))))
      = none := by
  rw [show searchPat "digitalWrite".data isWordChar
      ("analogWrite(".data ++ (P ++ (", ".data ++ (D ++ ")".data))))
    = searchPat "digitalWrite".data isWordChar
        (P ++ (", ".data ++ (D ++ ")".data))) from
    searchPat_skip_all 'd' "igitalWrite".data _ "analogWrite(".data
      (P ++ (", ".data ++ (D ++ ")".data))) (by decide)]
  rw [show searchPat "digitalWrite".data isWordChar
      (P ++ (", ".data ++ (D ++ ")".data)))
    = searchPat "digitalWrite".data isWordChar
        (',' :: (' ' :: (D ++ ")".data))) from
    searchPat_digital_skip_word isWordChar P hPw (' ' :: (D ++ ")".data))]
  rw [searchPat_cons_ne _ _ _ _ _ (by decide : ('d' == ',') = false)]
  rw [searchPat_cons_ne _ _ _ _ _ (by decide : ('d' == ' ') = false)]
  apply searchPat_none_of_ne
  intro x hx
  rcases List.mem_append.mp hx with h | h
  · exact ne_beq_of_digit 'd' (by decide) x (hD x h)
  · have hx' : x = ')' := by simpa using h
    subst hx'
    decide

/-- Executing the single line `analogWrite(P, D)` for a nonempty word
token `P` and nonempty digit token `D`, when the line does not happen to
contain the substring `digitalWrite` inside `P`: the analog pattern
matches with groups `P` and `D` and the thresholded write fires exactly
when `P` is a key of the digital table. -/
theorem exec_analog_line (s : Sim) (P D : Str)
    (hPne : P ≠ []) (hPw : ∀ c ∈ P, isWordChar c = true)
    (hDne : D ≠ []) (hD : ∀ c ∈ D, c.isDigit = true)
    (hc : ¬ containsSub "digitalWrite".data ("analogWrite(".data
        ++ (P ++ (", ".data ++ (D ++ ")".data)))) = true) :
    s.execute_code ("analogWrite(".data
        ++ (P ++ (", ".data ++ (D ++ ")".data))))
    = if dictMem s.arduino_pins P then
        s.set_pin P (.bool (decide (digitsToNat D > 127)))
      else s := by
  have hpre : ("analogWrite".data).isPrefixOf
      ("analogWrite(".data ++ (P ++ (", ".data ++ (D ++ ")".data))))
      = true :=
    isPrefixOf_append_self "analogWrite".data
      ('(' :: (P ++ (',' :: ' ' :: (D ++ [')']))))
  have hsearch : searchPat "analogWrite".data Char.isDigit
      ("analogWrite(".data ++ (P ++ (", ".data ++ (D ++ ")".data))))
      = some (P, D) := by
    apply searchPat_found _ _ _ _ hpre
    exact parseArgs_canonical Char.isDigit P D hPne hPw hDne hD
      (fun c hcm => digit_not_space c (hD c hcm)) (by decide)
  unfold Sim.execute_code
  rw [splitNl_single _ (no_newline_analog_line P D hPw hD)]
  show Sim.execLine s _ = _
  unfold Sim.execLine
  dsimp only
  rw [stripChars_analog_line P D]
  rw [if_neg hc]
  rw [containsSub_of_isPrefixOf _ _ hpre, if_pos rfl, hsearch]

/-- Executing the single line `analogWrite(P, D)` when the line does
contain the substring `digitalWrite` (necessarily inside `P`): the
interpreter takes the `digitalWrite` branch, whose pattern nevertheless
fails to match, so nothing happens at all. -/
theorem exec_analog_line_skip (s : Sim) (P D : Str)
    (hPw : ∀ c ∈ P, isWordChar c = true)
    (hD : ∀ c ∈ D, c.isDigit = true)
    (hc : containsSub "digitalWrite".data ("analogWrite(".data
        ++ (P ++ (", ".data ++ (D ++ ")".data)))) = true) :
    s.execute_code ("analogWrite(".data
        ++ (P ++ (", ".data ++ (D ++ ")".data)))) = s := by
  unfold Sim.execute_code
  rw [splitNl_single _ (no_newline_analog_line P D hPw hD)]
  show Sim.execLine s _ = s
  unfold Sim.execLine
  dsimp only
  rw [stripChars_analog_line P D]
  rw [if_pos hc, searchDigital_on_analog_line P D hPw hD]

/-- Claim C4, amended.  For every pin token `P` made of word characters
and every nonnegative integer written as a digit literal `D`, executing
the line `analogWrite(P, D)` leaves the simulator in exactly the state
that executing `digitalWrite(P, HIGH)` would when `int(D) > 127`, and
`digitalWrite(P, LOW)` when `int(D) ≤ 127`.  The hypothesis that the
digital table's keys are `D0`–`D13` holds for every reachable simulator
(claim C10); negative values are not equivalent, because `-`, not being a
digit, makes the `\d+` pattern fail (see the counterexample). -/
theorem C4_amended (s : Sim) (P D : Str)
    (hkeys : dictKeys s.arduino_pins = ARDUINO_DIGITAL_PINS)
    (hPw : ∀ c ∈ P, isWordChar c = true)
    (hDne : D ≠ []) (hD : ∀ c ∈ D, c.isDigit = true) :
    s.execute_code ("analogWrite(".data
        ++ (P ++ (", ".data ++ (D ++ ")".data))))
    = s.execute_code ("digitalWrite(".data
        ++ (P ++ (if digitsToNat D > 127
            then ", HIGH)".data else ", LOW)".data))) := by
  cases P with
  | nil =>
    have hL : s.execute_code ("analogWrite(".data
        ++ (([] : Str) ++ (", ".data ++ (D ++ ")".data)))) = s := by
      unfold Sim.execute_code
      rw [splitNl_single _ (no_newline_analog_line [] D hPw hD)]
      show Sim.execLine s _ = s
      apply execLine_noop
      · rw [stripChars_analog_line [] D]
        apply searchPat_none_of_ne
        intro x hx
        rcases List.mem_append.mp hx with h | h
        · exact (by decide :
            ∀ y ∈ "analogWrite(".data, ('d' == y) = false) x h
        rcases List.mem_append.mp h with h | h
        · cases h
        rcases List.mem_append.mp h with h | h
        · exact (by decide : ∀ y ∈ ", ".data, ('d' == y) = false) x h
        rcases List.mem_append.mp h with h | h
        · exact ne_beq_of_digit 'd' (by decide) x (hD x h)
        · have hx' : x = ')' := by simpa using h
          subst hx'
          decide
      · rw [stripChars_analog_line [] D]
        exact searchAnalog_empty_pin D hD
    rw [hL]
    by_cases ht : digitsToNat D > 127
    · rw [if_pos ht]
      have hR : s.execute_code ("digitalWrite(".data
          ++ (([] : Str) ++ ", HIGH)".data)) = s := by
        unfold Sim.execute_code
        rw [splitNl_single _ (by decide)]
        exact execLine_noop s
          ("digitalWrite(".data ++ (([] : Str) ++ ", HIGH)".data))
          (by decide) (by decide)
      rw [hR]
    · rw [if_neg ht]
      have hR : s.execute_code ("digitalWrite(".data
          ++ (([] : Str) ++ ", LOW)".data)) = s := by
        unfold Sim.execute_code
        rw [splitNl_single _ (by decide)]
        exact execLine_noop s
          ("digitalWrite(".data ++ (([] : Str) ++ ", LOW)".data))
          (by decide) (by decide)
      rw [hR]
  | cons p0 P' =>
    have hR : s.execute_code ("digitalWrite(".data
        ++ ((p0 :: P') ++ (if digitsToNat D > 127
            then ", HIGH)".data else ", LOW)".data)))
      = if dictMem s.arduino_pins (p0 :: P') then
          s.set_pin (p0 :: P') (.bool (decide (digitsToNat D > 127)))
        else s := by
      by_cases ht : digitsToNat D > 127
      · rw [if_pos ht]
        show s.execute_code ("digitalWrite(".data
            ++ ((p0 :: P') ++ (", ".data ++ ("HIGH".data ++ ")".data)))) = _
        rw [exec_digital_line_gen s (p0 :: P') "HIGH".data (by simp) hPw
            (by decide) (by decide)]
        rw [show ("HIGH".data == "HIGH".data) = true from rfl,
          show (decide (digitsToNat D > 127)) = true by simp [ht]]
      · rw [if_neg ht]
        show s.execute_code ("digitalWrite(".data
            ++ ((p0 :: P') ++ (", ".data ++ ("LOW".data ++ ")".data)))) = _
        rw [exec_digital_line_gen s (p0 :: P') "LOW".data (by simp) hPw
            (by decide) (by decide)]
        rw [show ("LOW".data == "HIGH".data) = false from rfl,
          show (decide (digitsToNat D > 127)) = false by simp [ht]]
    rw [hR]
    by_cases hc : containsSub "digitalWrite".data ("analogWrite(".data
        ++ ((p0 :: P') ++ (", ".data ++ (D ++ ")".data)))) = true
    · rw [exec_analog_line_skip s (p0 :: P') D hPw hD hc]
      have hmem : dictMem s.arduino_pins (p0 :: P') = false := by
        cases hm : dictMem s.arduino_pins (p0 :: P')
        · rfl
        · exfalso
          have hk : (p0 :: P') ∈ ARDUINO_DIGITAL_PINS := by
            rw [← hkeys]
            exact dictMem_mem_keys _ _ hm
          have hnd : ∀ c ∈ (p0 :: P'), ('d' == c) = false :=
            (by decide : ∀ q ∈ ARDUINO_DIGITAL_PINS,
              ∀ c ∈ q, ('d' == c) = false) _ hk
          have hfalse : containsSub "digitalWrite".data ("analogWrite(".data
              ++ ((p0 :: P') ++ (", ".data ++ (D ++ ")".data)))) = false := by
            apply containsSub_none_of_ne
            intro x hx
            rcases List.mem_append.mp hx with h | h
            · exact (by decide :
                ∀ y ∈ "analogWrite(".data, ('d' == y) = false) x h
            rcases List.mem_append.mp h with h | h
            · exact hnd x h
            rcases List.mem_append.mp h with h | h
            · exact (by decide : ∀ y ∈ ", ".data, ('d' == y) = false) x h
            rcases List.mem_append.mp h with h | h
            · exact ne_beq_of_digit 'd' (by decide) x (hD x h)
            · have hx' : x = ')' := by simpa using h
              subst hx'
              decide
          rw [hfalse] at hc
          simp at hc
      rw [hmem]
      simp
    · rw [exec_analog_line s (p0 :: P') D (by simp) hPw hDne hD hc]

/-- Claim C4, counterexample.  The claim quantifies over every integer
`V`; for the negative value `V = -1` the equivalence fails: the `\d+`
pattern of `analogWrite` does not match `-1`, so the statement is silently
skipped, while `digitalWrite(D13, LOW)` (the claimed equivalent for
`V ≤ 127`) does write the pin.  Starting from a fresh simulator whose
`D13` was set `HIGH`, the two resulting states differ. -/
theorem C4_counterexample :
    ((Sim.init.execute_code "digitalWrite(D13, HIGH)".data).execute_code
        "analogWrite(D13, -1)".data
      = Sim.init.execute_code "digitalWrite(D13, HIGH)".data)
    ∧ ((Sim.init.execute_code "digitalWrite(D13, HIGH)".data).execute_code
        "digitalWrite(D13, LOW)".data
      ≠ (Sim.init.execute_code "digitalWrite(D13, HIGH)".data).execute_code
        "analogWrite(D13, -1)".data) := by
  refine ⟨by decide, by decide⟩

/-- Claim C4 (amended), witness: the fresh simulator, pin `D13`, value
`200`. -/
theorem C4_witness :
    (dictKeys Sim.init.arduino_pins = ARDUINO_DIGITAL_PINS)
    ∧ (∀ c ∈ "D13".data, isWordChar c = true)
    ∧ ("200".data ≠ [])
    ∧ (∀ c ∈ "200".data, c.isDigit = true)
    ∧ (Sim.init.execute_code ("analogWrite(".data
          ++ ("D13".data ++ (", ".data ++ ("200".data ++ ")".data))))
        = Sim.init.execute_code ("digitalWrite(".data
            ++ ("D13".data ++ (if digitsToNat "200".data > 127
                then ", HIGH)".data else ", LOW)".data)))) :=
  ⟨by decide, by decide, by decide, by decide,
    C4_amended Sim.init "D13".data "200".data (by decide) (by decide)
      (by decide) (by decide)⟩

/-! ## Dictionary algebra for the idempotence analysis (claim C9) -/

theorem dict_ext [BEq α] [LawfulBEq α] :
    ∀ (d1 d2 : Dict α β), dictKeys d1 = dictKeys d2 →
    (dictKeys d1).Nodup → (∀ k, dictGet d1 k = dictGet d2 k) → d1 = d2 := by
  intro d1
  induction d1 with
  | nil =>
    intro d2 hk _ _
    cases d2 with
    | nil => rfl
    | cons kv t => simp [dictKeys] at hk
  | cons kv t ih =>
    intro d2 hk hnd hget
    obtain ⟨k, v⟩ := kv
    cases d2 with
    | nil => simp [dictKeys] at hk
    | cons kv' t' =>
      obtain ⟨k', v'⟩ := kv'
      simp only [dictKeys, List.map_cons, List.cons.injEq] at hk
      obtain ⟨hkk, hkt⟩ := hk
      subst hkk
      have hv : some v = some v' := by
        have := hget k
        simpa [dictGet] using this
      have hnd2 : (k :: dictKeys t).Nodup := by
        simpa [dictKeys] using hnd
      have hknot : k ∉ dictKeys t := (List.nodup_cons.mp hnd2).1
      have hnd' : (dictKeys t).Nodup := (List.nodup_cons.mp hnd2).2
      have hget' : ∀ q, dictGet t q = dictGet t' q := by
        intro q
        by_cases hq : k = q
        · subst hq
          have h1 : dictGet t k = none := by
            cases hg : dictGet t k with
            | none => rfl
            | some w =>
              exact absurd (dictMem_mem_keys t k (by simp [dictMem, hg]))
                hknot
          have hknot' : k ∉ dictKeys t' := by
            unfold dictKeys
            rw [← hkt]
            exact hknot
          have h2 : dictGet t' k = none := by
            cases hg : dictGet t' k with
            | none => rfl
            | some w =>
              exact absurd (dictMem_mem_keys t' k (by simp [dictMem, hg]))
                hknot'
          rw [h1, h2]
        · have := hget q
          have hb : (k == q) = false := by simp [hq]
          simpa [dictGet, hb] using this
      rw [ih t' hkt hnd' hget', Option.some_inj.mp hv]

theorem dictSet_dictSet_same [BEq α] [LawfulBEq α] (d : Dict α β)
    (k : α) (v w : β) : dictSet (dictSet d k v) k w = dictSet d k w := by
  induction d with
  | nil => simp [dictSet]
  | cons kv t ih =>
    obtain ⟨k', v'⟩ := kv
    by_cases h : k' == k
    · simp [dictSet, h]
    · simp [dictSet, h, ih]

theorem dictMem_dictSet_self [BEq α] [LawfulBEq α] (d : Dict α β)
    (k : α) (v : β) : dictMem (dictSet d k v) k = true := by
  simp [dictMem, dictGet_dictSet_self]

theorem dictSet_comm_of_mem [BEq α] [LawfulBEq α] :
    ∀ (d : Dict α β) (k j : α) (v w : β), ¬ k = j → dictMem d k = true →
    dictSet (dictSet d k v) j w = dictSet (dictSet d j w) k v := by
  intro d
  induction d with
  | nil => intro k j v w _ hm; simp [dictMem, dictGet] at hm
  | cons kv t ih =>
    intro k j v w hkj hm
    obtain ⟨k', v'⟩ := kv
    by_cases h1 : k' == k
    · have hk : k' = k := by simpa using h1
      subst hk
      have h2 : (k' == j) = false := by simpa using hkj
      simp [dictSet, h1, h2]
    · by_cases h2 : k' == j
      · simp [dictSet, h1, h2]
      · have hb1 : (k' == k) = false := bool_eq_false h1
        have hb2 : (k' == j) = false := bool_eq_false h2
        have hm' : dictMem t k = true := by
          simpa [dictMem, dictGet, hb1] using hm
        simp [dictSet, hb1, hb2, ih k j v w hkj hm']

/-- Re-driving an LED overwrites the previous drive completely: four
`on`/`brightness` writes collapse to the last two. -/
theorem absorb4 (x : Dict Str PyVal) (a b c d : PyVal) :
    dictSet (dictSet (dictSet (dictSet x "on".data a) "brightness".data b)
        "on".data c) "brightness".data d
      = dictSet (dictSet x "on".data c) "brightness".data d := by
  rw [← dictSet_comm_of_mem (dictSet x "on".data a) "on".data
      "brightness".data c b (by decide) (dictMem_dictSet_self x "on".data a),
    dictSet_dictSet_same, dictSet_dictSet_same]

/-! ## Claim C1 — counterexample -/

/-- The circuit used to refute claim C1: an unpressed button wired from
its `Pin1` into the board pin `D2` (the scenario of claim C3). -/
def c1Sim : Sim :=
  Sim.init.load_circuit [(0, buttonDefault), (1, boardDefault)]
    [⟨some 0, some "Pin1".data, some 1, some "D2".data⟩]

/-- Claim C1, counterexample.  The claim states that executing
`digitalWrite(P, HIGH)` sets the table entry for a recognized `P` to
`true`.  With a button wired into `D2`, the propagation triggered by the
very same write immediately overwrites the just-written entry with the
button's `pressed` value (`False`), so after
`execute_code("digitalWrite(D2, HIGH)")` the entry reads `False`, not
`True`. -/
theorem C1_counterexample :
    dictGet (c1Sim.execute_code "digitalWrite(D2, HIGH)".data).arduino_pins
      "D2".data = some (.bool false) := by decide

/-! ## Claim C9 — counterexample (amended theorem follows later) -/

/-- The circuit used to refute claim C9: the board drives an LED from
`D2` (first wire) while a pressed button feeds board pin `D2` (second
wire).  During the first execution the LED samples `D2` before the button
value lands in the table; during the second execution it samples the
updated value. -/
def c9Sim : Sim :=
  Sim.init.load_circuit
    [(0, boardDefault), (1, ledDefault), (2, buttonPressed)]
    [⟨some 0, some "D2".data, some 1, some "Anode".data⟩,
     ⟨some 2, some "Pin1".data, some 0, some "D2".data⟩]

/-- Claim C9, counterexample.  The claim states that running the same
source twice against the same circuit is idempotent.  Executing
`digitalWrite(D5, HIGH)` on `c9Sim` twice is not: after the first run the
LED is off (`on = False`), after the second it is on (`on = True`), so the
complete state after the second call differs from the state after the
first. -/
theorem C9_counterexample :
    (c9Sim.execute_code "digitalWrite(D5, HIGH)".data).execute_code
        "digitalWrite(D5, HIGH)".data
      ≠ c9Sim.execute_code "digitalWrite(D5, HIGH)".data
    ∧ ((dictGet (c9Sim.execute_code "digitalWrite(D5, HIGH)".data).heap 1).map
        (fun c => dictGet c.state "on".data)) = some (some (.bool false))
    ∧ ((dictGet ((c9Sim.execute_code "digitalWrite(D5, HIGH)".data).execute_code
          "digitalWrite(D5, HIGH)".data).heap 1).map
        (fun c => dictGet c.state "on".data)) = some (some (.bool true)) := by
  refine ⟨by decide, by decide, by decide⟩

/-! ## Claim C9 — the amended idempotence theorem

The counterexample relies on a pin name being simultaneously read by one
wire (as a start pin) and written by another (as an end pin).  The amended
claim asserts idempotence whenever no pin name plays both roles.  The
development below relates the states reached by the first and the second
run: component states may lag by one pending LED drive (`compRel`), and
the pin table may differ only at end pins that the propagation pass is
guaranteed to rewrite with identical values, or at pins that a remaining
statement rewrites. -/

/-- How a component's mutable state can differ between the two runs:
identical, or overwritten on `on`/`brightness` by a pending LED drive
(the only heap mutation the simulator performs). -/
def compRel (c c' : Component) : Prop :=
  c'.component_type = c.component_type ∧ c'.component_id = c.component_id
  ∧ c'.pins = c.pins ∧ c'.properties = c.properties
  ∧ (c'.state = c.state ∨ ∃ a b, c'.state =
      dictSet (dictSet c.state "on".data a) "brightness".data b)

/-- `compRel` lifted to heap lookups. -/
def compRelOpt : Option Component → Option Component → Prop
  | none, none => True
  | some c, some c' => compRel c c'
  | _, _ => False

/-- The board pin name written into the table by `stepWire` on wire `w`
(the board-is-end branch), if that branch fires. -/
def wireEndWrite (ard : Nat) (s : Sim) (w : Wire) : Option Str :=
  match w.start_component, w.end_component with
  | some scRef, some ecRef =>
    match dictGet s.heap scRef, dictGet s.heap ecRef with
    | some scomp, some ecomp =>
      let sp := match w.start_pin_name with
                | some n => scomp.get_pin_by_name n
                | none => none
      let ep := match w.end_pin_name with
                | some n => ecomp.get_pin_by_name n
                | none => none
      match sp, ep with
      | some _, some epin =>
        if scRef == ard then none
        else if ecRef == ard then
          if dictMem s.arduino_pins epin.name then some epin.name else none
        else none
      | _, _ => none
    | _, _ => none
  | _, _ => none

/-- The heap reference whose component `stepWire` rewrites on wire `w`
(the board-is-start branch reaching the LED case), if that happens. -/
def wireAffect (ard : Nat) (s : Sim) (w : Wire) : Option Nat :=
  match w.start_component, w.end_component with
  | some scRef, some ecRef =>
    match dictGet s.heap scRef, dictGet s.heap ecRef with
    | some scomp, some ecomp =>
      let sp := match w.start_pin_name with
                | some n => scomp.get_pin_by_name n
                | none => none
      let ep := match w.end_pin_name with
                | some n => ecomp.get_pin_by_name n
                | none => none
      match sp, ep with
      | some spin, some epin =>
        if scRef == ard then
          if dictMem s.arduino_pins spin.name then
            if ecomp.component_type == "LED".data then
              if epin.name == "Anode".data then some ecRef else none
            else none
          else none
        else none
      | _, _ => none
    | _, _ => none
  | _, _ => none

/-- `wireEndWrite` for the arduino the propagation pass actually uses. -/
def firedEnd (s : Sim) (w : Wire) : Option Str :=
  match s.findArduino with
  | some ard => wireEndWrite ard s w
  | none => none

/-- `wireAffect` for the arduino the propagation pass actually uses. -/
def firedAff (s : Sim) (w : Wire) : Option Nat :=
  match s.findArduino with
  | some ard => wireAffect ard s w
  | none => none

/-- The table write a line of `execute_code` performs, if any: the branch
structure of `execLine` including the key-membership guard (which depends
on the table only through its key sequence). -/
def lineOp (tbl : Dict Str PyVal) (l : Str) : Option (Str × PyVal) :=
  let line := stripChars l
  if containsSub "digitalWrite".data line then
    match searchPat "digitalWrite".data isWordChar line with
    | some (pin, value) =>
      if dictMem tbl pin then some (pin, .bool (value == "HIGH".data))
      else none
    | none => none
  else if containsSub "analogWrite".data line then
    match searchPat "analogWrite".data Char.isDigit line with
    | some (pin, value) =>
      if dictMem tbl pin then
        some (pin, .bool (decide (digitsToNat value > 127)))
      else none
    | none => none
  else none

/-- Whether some line of the program performs a table write. -/
def hasOp (tbl : Dict Str PyVal) (ls : List Str) : Bool :=
  ls.any (fun l => (lineOp tbl l).isSome)

theorem compRel_refl (c : Component) : compRel c c :=
  ⟨rfl, rfl, rfl, rfl, Or.inl rfl⟩

theorem compRelOpt_refl (o : Option Component) : compRelOpt o o := by
  cases o
  · trivial
  · exact compRel_refl _

theorem compRel_trans {a b c : Component} (h1 : compRel a b)
    (h2 : compRel b c) : compRel a c := by
  obtain ⟨t1, i1, p1, r1, s1⟩ := h1
  obtain ⟨t2, i2, p2, r2, s2⟩ := h2
  refine ⟨t2.trans t1, i2.trans i1, p2.trans p1, r2.trans r1, ?_⟩
  rcases s1 with hb | ⟨x, y, hb⟩
  · rcases s2 with hc | ⟨x', y', hc⟩
    · exact Or.inl (hc.trans hb)
    · exact Or.inr ⟨x', y', by rw [hc, hb]⟩
  · rcases s2 with hc | ⟨x', y', hc⟩
    · exact Or.inr ⟨x, y, by rw [hc, hb]⟩
    · exact Or.inr ⟨x', y', by rw [hc, hb, absorb4]⟩

theorem compRelOpt_trans {a b c : Option Component} (h1 : compRelOpt a b)
    (h2 : compRelOpt b c) : compRelOpt a c := by
  cases a <;> cases b <;> cases c <;>
    first
      | trivial
      | exact h1.elim
      | exact h2.elim
      | exact compRel_trans h1 h2

/-- A pending LED drive relates a component to its driven form. -/
theorem compRel_affect (c : Component) (sig b : PyVal) :
    compRel c { c with state := (dictSet
      (dictSet c.state "on".data sig) "brightness".data b) } :=
  ⟨rfl, rfl, rfl, rfl, Or.inr ⟨sig, b, rfl⟩⟩

/-- Driving two related components with the same signal yields equal
components: the lagging drive is absorbed. -/
theorem affect_state_eq (c c' : Component) (h : compRel c c')
    (sig b : PyVal) :
    ({ c' with state := (dictSet
        (dictSet c'.state "on".data sig) "brightness".data b) })
      = { c with state := (dictSet
        (dictSet c.state "on".data sig) "brightness".data b) } := by
  obtain ⟨t1, i1, p1, r1, s1⟩ := h
  cases c with
  | mk ct ci cp cr cs =>
    cases c' with
    | mk ct' ci' cp' cr' cs' =>
      dsimp at t1 i1 p1 r1 s1 ⊢
      subst t1; subst i1; subst p1; subst r1
      rcases s1 with hs | ⟨x, y, hs⟩
      · subst hs; rfl
      · subst hs
        rw [absorb4]

/-- Driving two related components with possibly different signals keeps
them related. -/
theorem affect_state_rel (c c' : Component) (h : compRel c c')
    (sig sig' b b' : PyVal) :
    compRel
      ({ c with state := (dictSet
          (dictSet c.state "on".data sig) "brightness".data b) })
      ({ c' with state := (dictSet
          (dictSet c'.state "on".data sig') "brightness".data b') }) := by
  obtain ⟨t1, i1, p1, r1, s1⟩ := h
  refine ⟨t1, i1, p1, r1, Or.inr ⟨sig', b', ?_⟩⟩
  dsimp
  rw [absorb4]
  rcases s1 with hs | ⟨x, y, hs⟩
  · rw [hs]
  · rw [hs, absorb4]

theorem dictMem_eq_mem [BEq α] [LawfulBEq α] (d : Dict α β) (k : α) :
    dictMem d k = decide (k ∈ dictKeys d) := by
  induction d with
  | nil => simp [dictMem, dictGet, dictKeys]
  | cons kv t ih =>
    obtain ⟨k', v'⟩ := kv
    by_cases h : k' == k
    · have hk : k' = k := by simpa using h
      simp [dictMem, dictGet, h, dictKeys, hk]
    · have hk : ¬ k' = k := by simpa using h
      have hk2 : ¬ k = k' := fun he => hk he.symm
      have hstep : dictMem ((k', v') :: t) k = dictMem t k := by
        simp [dictMem, dictGet, bool_eq_false h]
      rw [hstep, ih]
      simp [dictKeys, hk2]

theorem dictMem_congr [BEq α] [LawfulBEq α] (d d' : Dict α β)
    (h : dictKeys d = dictKeys d') (k : α) : dictMem d k = dictMem d' k := by
  rw [dictMem_eq_mem, dictMem_eq_mem, h]

theorem get_pin_by_name_congr (c c' : Component) (h : c'.pins = c.pins)
    (n : Str) : c'.get_pin_by_name n = c.get_pin_by_name n := by
  unfold Component.get_pin_by_name
  rw [h]

theorem findSome_congr {α β : Type} {f g : α → Option β} :
    ∀ (l : List α), (∀ x ∈ l, f x = g x) →
    l.findSome? f = l.findSome? g := by
  intro l
  induction l with
  | nil => intro _; rfl
  | cons a t ih =>
    intro h
    have ha := h a (List.mem_cons_self a t)
    simp only [List.findSome?]
    rw [ha]
    cases g a with
    | none => exact ih (fun x hx => h x (List.mem_cons_of_mem a hx))
    | some b => rfl

theorem compRelOpt_some {c c' : Component}
    (h : compRelOpt (some c) (some c')) : compRel c c' := h

/-- `findArduino` sees only component types, which `compRel` preserves. -/
theorem findArduino_congr (u v : Sim) (hc : v.components = u.components)
    (hh : ∀ r, compRelOpt (dictGet u.heap r) (dictGet v.heap r)) :
    v.findArduino = u.findArduino := by
  unfold Sim.findArduino
  rw [hc]
  apply findSome_congr
  intro kv _
  dsimp only
  have h := hh kv.2
  cases h1 : dictGet u.heap kv.2 with
  | none =>
    cases h2 : dictGet v.heap kv.2 with
    | none => rfl
    | some c =>
      rw [h1, h2] at h
      exact h.elim
  | some c =>
    cases h2 : dictGet v.heap kv.2 with
    | none =>
      rw [h1, h2] at h
      exact h.elim
    | some c' =>
      rw [h1, h2] at h
      have h' : compRel c c' := h
      dsimp only
      rw [h'.1]

theorem compRelOpt_cases {o o' : Option Component} (h : compRelOpt o o') :
    (o = none ∧ o' = none)
    ∨ ∃ c c', o = some c ∧ o' = some c' ∧ compRel c c' := by
  cases o <;> cases o'
  · exact Or.inl ⟨rfl, rfl⟩
  · exact h.elim
  · exact h.elim
  · exact Or.inr ⟨_, _, rfl, rfl, h⟩

/-- `_read_component` only consults the component type and the `pressed`
state entry, which `compRel` preserves (the pin-name argument is unused
in the source). -/
theorem read_component_rel (c c' : Component) (h : compRel c c')
    (n n' : Str) : read_component c' n = read_component c n' := by
  unfold read_component
  rw [h.1]
  rcases h.2.2.2.2 with hs | ⟨a, b, hs⟩
  · rw [hs]
  · rw [hs]
    have hgd : dictGetD
        (dictSet (dictSet c.state "on".data a) "brightness".data b)
        "pressed".data (.bool false)
        = dictGetD c.state "pressed".data (.bool false) := by
      unfold dictGetD
      rw [dictGet_dictSet_ne _ _ _ _ (by decide),
        dictGet_dictSet_ne _ _ _ _ (by decide)]
    rw [hgd]

/-- `wireEndWrite` depends on the heap only through data `compRel`
preserves, and on the table only through its keys. -/
theorem wireEndWrite_congr (ard : Nat) (u v : Sim) (w : Wire)
    (hk : dictKeys v.arduino_pins = dictKeys u.arduino_pins)
    (hh : ∀ r, compRelOpt (dictGet u.heap r) (dictGet v.heap r)) :
    wireEndWrite ard v w = wireEndWrite ard u w := by
  rcases w with ⟨wsc, wsp, wec, wep⟩
  cases wsc with
  | none => rfl
  | some scRef =>
    cases wec with
    | none => rfl
    | some ecRef =>
      unfold wireEndWrite
      dsimp only
      rcases compRelOpt_cases (hh scRef) with ⟨h1, h1'⟩ |
          ⟨sc, sc', h1, h1', hsrel⟩ <;>
        rcases compRelOpt_cases (hh ecRef) with ⟨h2, h2'⟩ |
            ⟨ec, ec', h2, h2', herel⟩ <;>
          rw [h1, h1', h2, h2']
      dsimp only
      cases wsp with
      | none =>
        cases wep with
        | none => rfl
        | some epn => rfl
      | some spn =>
        dsimp only
        rw [get_pin_by_name_congr sc sc' hsrel.2.2.1 spn]
        cases wep with
        | none =>
          cases sc.get_pin_by_name spn with
          | none => rfl
          | some spin => rfl
        | some epn =>
          dsimp only
          rw [get_pin_by_name_congr ec ec' herel.2.2.1 epn]
          cases sc.get_pin_by_name spn with
          | none => rfl
          | some spin =>
            cases ec.get_pin_by_name epn with
            | none => rfl
            | some epin =>
              dsimp only
              rw [dictMem_congr v.arduino_pins u.arduino_pins hk epin.name]

/-- `wireAffect` depends on the heap only through data `compRel`
preserves, and on the table only through its keys. -/
theorem wireAffect_congr (ard : Nat) (u v : Sim) (w : Wire)
    (hk : dictKeys v.arduino_pins = dictKeys u.arduino_pins)
    (hh : ∀ r, compRelOpt (dictGet u.heap r) (dictGet v.heap r)) :
    wireAffect ard v w = wireAffect ard u w := by
  rcases w with ⟨wsc, wsp, wec, wep⟩
  cases wsc with
  | none => rfl
  | some scRef =>
    cases wec with
    | none => rfl
    | some ecRef =>
      unfold wireAffect
      dsimp only
      rcases compRelOpt_cases (hh scRef) with ⟨h1, h1'⟩ |
          ⟨sc, sc', h1, h1', hsrel⟩ <;>
        rcases compRelOpt_cases (hh ecRef) with ⟨h2, h2'⟩ |
            ⟨ec, ec', h2, h2', herel⟩ <;>
          rw [h1, h1', h2, h2']
      dsimp only
      cases wsp with
      | none =>
        cases wep with
        | none => rfl
        | some epn => rfl
      | some spn =>
        dsimp only
        rw [get_pin_by_name_congr sc sc' hsrel.2.2.1 spn]
        cases wep with
        | none =>
          cases sc.get_pin_by_name spn with
          | none => rfl
          | some spin => rfl
        | some epn =>
          dsimp only
          rw [get_pin_by_name_congr ec ec' herel.2.2.1 epn]
          cases sc.get_pin_by_name spn with
          | none => rfl
          | some spin =>
            cases ec.get_pin_by_name epn with
            | none => rfl
            | some epin =>
              dsimp only
              rw [dictMem_congr v.arduino_pins u.arduino_pins hk spin.name,
                herel.1]

/-- Exhaustive outcome analysis for one propagation step: the wire is
skipped, or the board-is-end branch writes one table entry read back from
the start component, or the board-is-start branch rewrites one LED on the
heap. -/
theorem stepWire_shape (ard : Nat) (s : Sim) (w : Wire) :
    (wireEndWrite ard s w = none ∧ wireAffect ard s w = none
      ∧ Sim.stepWire ard s w = s)
    ∨ (∃ q scomp, wireEndWrite ard s w = some q ∧ wireAffect ard s w = none
        ∧ w.end_pin_name = some q
        ∧ dictMem s.arduino_pins q = true
        ∧ (∃ scRef, w.start_component = some scRef
            ∧ dictGet s.heap scRef = some scomp)
        ∧ Sim.stepWire ard s w = { s with arduino_pins :=
            (dictSet s.arduino_pins q (read_component scomp [])) })
    ∨ (∃ r ecomp pname, wireAffect ard s w = some r
        ∧ wireEndWrite ard s w = none
        ∧ dictGet s.heap r = some ecomp
        ∧ w.start_pin_name = some pname
        ∧ dictMem s.arduino_pins pname = true
        ∧ Sim.stepWire ard s w = { s with heap :=
            (dictSet s.heap r { ecomp with state := (dictSet
              (dictSet ecomp.state "on".data
                (dictGetD s.arduino_pins pname (.bool false)))
              "brightness".data
              (.int (if (dictGetD s.arduino_pins pname
                          (.bool false)).truthy then 255 else 0))) }) }) := by
  rcases w with ⟨wsc, wsp, wec, wep⟩
  cases wsc with
  | none => exact Or.inl ⟨rfl, rfl, rfl⟩
  | some scRef =>
    cases wec with
    | none => exact Or.inl ⟨rfl, rfl, rfl⟩
    | some ecRef =>
      unfold wireEndWrite wireAffect Sim.stepWire affect_component
      dsimp only
      cases hsc : dictGet s.heap scRef with
      | none =>
        cases hec : dictGet s.heap ecRef with
        | none => exact Or.inl ⟨rfl, rfl, rfl⟩
        | some ec => exact Or.inl ⟨rfl, rfl, rfl⟩
      | some sc =>
        cases hec : dictGet s.heap ecRef with
        | none => exact Or.inl ⟨rfl, rfl, rfl⟩
        | some ec =>
          dsimp only
          cases wsp with
          | none =>
            cases wep with
            | none => exact Or.inl ⟨rfl, rfl, rfl⟩
            | some epn =>
              dsimp only
              cases hep : ec.get_pin_by_name epn <;>
                exact Or.inl ⟨rfl, rfl, rfl⟩
          | some spn =>
            dsimp only
            cases hsp : sc.get_pin_by_name spn with
            | none =>
              cases wep with
              | none => exact Or.inl ⟨rfl, rfl, rfl⟩
              | some epn =>
                dsimp only
                cases hep : ec.get_pin_by_name epn <;>
                  exact Or.inl ⟨rfl, rfl, rfl⟩
            | some spin =>
              cases wep with
              | none => exact Or.inl ⟨rfl, rfl, rfl⟩
              | some epn =>
                dsimp only
                cases hep : ec.get_pin_by_name epn with
                | none => exact Or.inl ⟨rfl, rfl, rfl⟩
                | some epin =>
                  dsimp only
                  have hname : epin.name = epn :=
                    get_pin_by_name_name ec epn epin hep
                  have hsname : spin.name = spn :=
                    get_pin_by_name_name sc spn spin hsp
                  cases hsa : scRef == ard with
                  | true =>
                    cases hme : dictMem s.arduino_pins spin.name with
                    | true =>
                      cases hled : ec.component_type == "LED".data with
                      | true =>
                        cases han : epin.name == "Anode".data with
                        | true =>
                          refine Or.inr (Or.inr ⟨ecRef, ec, spin.name, rfl,
                            rfl, hec, ?_, hme, rfl⟩)
                          rw [hsname]
                        | false => exact Or.inl ⟨rfl, rfl, rfl⟩
                      | false => exact Or.inl ⟨rfl, rfl, rfl⟩
                    | false => exact Or.inl ⟨rfl, rfl, rfl⟩
                  | false =>
                    cases hea : ecRef == ard with
                    | true =>
                      cases hme : dictMem s.arduino_pins epin.name with
                      | true =>
                        refine Or.inr (Or.inl ⟨epin.name, sc, rfl, rfl, ?_,
                          hme, ⟨scRef, rfl, hsc⟩, rfl⟩)
                        rw [hname]
                      | false => exact Or.inl ⟨rfl, rfl, rfl⟩
                    | false => exact Or.inl ⟨rfl, rfl, rfl⟩

theorem stepWire_tbl_frame (ard : Nat) (s : Sim) (w : Wire) (q : Str)
    (h : wireEndWrite ard s w ≠ some q) :
    dictGet (Sim.stepWire ard s w).arduino_pins q
      = dictGet s.arduino_pins q := by
  rcases stepWire_shape ard s w with ⟨_, _, hS⟩ |
      ⟨q0, sc, hE, _, _, _, _, hS⟩ | ⟨r0, ec, pn, _, _, _, _, _, hS⟩
  · rw [hS]
  · rw [hS]
    dsimp only
    have hq : ¬ q0 = q := fun he => h (he ▸ hE)
    exact dictGet_dictSet_ne _ _ _ _ hq
  · rw [hS]

theorem stepWire_heap_frame (ard : Nat) (s : Sim) (w : Wire) (r : Nat)
    (h : wireAffect ard s w ≠ some r) :
    dictGet (Sim.stepWire ard s w).heap r = dictGet s.heap r := by
  rcases stepWire_shape ard s w with ⟨_, _, hS⟩ |
      ⟨q0, sc, _, _, _, _, _, hS⟩ | ⟨r0, ec, pn, hA, _, _, _, _, hS⟩
  · rw [hS]
  · rw [hS]
  · rw [hS]
    dsimp only
    have hr : ¬ r0 = r := fun he => h (he ▸ hA)
    exact dictGet_dictSet_ne _ _ _ _ hr

theorem stepWire_heap_rel (ard : Nat) (s : Sim) (w : Wire) (r : Nat) :
    compRelOpt (dictGet s.heap r) (dictGet (Sim.stepWire ard s w).heap r) := by
  rcases stepWire_shape ard s w with ⟨_, _, hS⟩ |
      ⟨q0, sc, _, _, _, _, _, hS⟩ | ⟨r0, ec, pn, _, _, hg, _, _, hS⟩
  · rw [hS]
    exact compRelOpt_refl _
  · rw [hS]
    exact compRelOpt_refl _
  · rw [hS]
    dsimp only
    by_cases hr : r0 = r
    · subst hr
      rw [dictGet_dictSet_self, hg]
      exact compRel_affect ec _ _
    · rw [dictGet_dictSet_ne _ _ _ _ hr]
      exact compRelOpt_refl _

theorem stepWire_heap_keys (ard : Nat) (s : Sim) (w : Wire) :
    dictKeys (Sim.stepWire ard s w).heap = dictKeys s.heap := by
  rcases stepWire_shape ard s w with ⟨_, _, hS⟩ |
      ⟨q0, sc, _, _, _, _, _, hS⟩ | ⟨r0, ec, pn, _, _, hg, _, _, hS⟩
  · rw [hS]
  · rw [hS]
  · rw [hS]
    dsimp only
    exact dictKeys_dictSet_of_mem _ _ _ (by simp [dictMem, hg])

/-- The coupled propagation step.  If the two runs' states agree on table
keys and have pointwise `compRel`-related heaps, then after one wire: the
heaps are again pointwise related; a fired board-end write leaves the two
tables equal at the written pin (Button reads agree across the relation);
and, when the two tables agree on the wire's start pin, a fired LED drive
leaves the two heaps equal at the driven reference. -/
theorem stepWire_coupled (ard : Nat) (u v : Sim) (w : Wire)
    (hk : dictKeys v.arduino_pins = dictKeys u.arduino_pins)
    (hh : ∀ r, compRelOpt (dictGet u.heap r) (dictGet v.heap r)) :
    (∀ r, compRelOpt (dictGet (Sim.stepWire ard u w).heap r)
        (dictGet (Sim.stepWire ard v w).heap r))
    ∧ (∀ q, wireEndWrite ard u w = some q →
        dictGet (Sim.stepWire ard u w).arduino_pins q
          = dictGet (Sim.stepWire ard v w).arduino_pins q)
    ∧ ((∀ p, w.start_pin_name = some p →
          dictGet u.arduino_pins p = dictGet v.arduino_pins p) →
        ∀ r, wireAffect ard u w = some r →
          dictGet (Sim.stepWire ard u w).heap r
            = dictGet (Sim.stepWire ard v w).heap r) := by
  have hEc := wireEndWrite_congr ard u v w hk hh
  have hAc := wireAffect_congr ard u v w hk hh
  rcases stepWire_shape ard u w with ⟨hE1, hA1, hS1⟩ |
      ⟨q0, sc, hE1, hA1, hEp1, hm1, ⟨scRef, hw1, hg1⟩, hS1⟩ |
      ⟨r0, ec, pn, hA1, hE1, hg1, hp1, hm1, hS1⟩ <;>
    rcases stepWire_shape ard v w with ⟨hE2, hA2, hS2⟩ |
        ⟨q2, sc2, hE2, hA2, hEp2, hm2, ⟨scRef2, hw2, hg2⟩, hS2⟩ |
        ⟨r2, ec2, pn2, hA2, hE2, hg2, hp2, hm2, hS2⟩
  · refine ⟨?_, ?_, ?_⟩
    · intro r
      rw [hS1, hS2]
      exact hh r
    · intro q hq
      rw [hE1] at hq
      exact Option.noConfusion hq
    · intro _ r hr
      rw [hA1] at hr
      exact Option.noConfusion hr
  · rw [hE1, hE2] at hEc
    exact Option.noConfusion hEc
  · rw [hA1, hA2] at hAc
    exact Option.noConfusion hAc
  · rw [hE1, hE2] at hEc
    exact Option.noConfusion hEc
  · have hq00 : q0 = q2 := by
      rw [hE1, hE2] at hEc
      exact (Option.some_inj.mp hEc).symm
    subst hq00
    have hrr : scRef = scRef2 := by
      rw [hw1] at hw2
      exact Option.some_inj.mp hw2
    subst hrr
    have hrel : compRel sc sc2 := by
      have h := hh scRef
      rw [hg1, hg2] at h
      exact h
    have hvv : read_component sc2 ([] : Str) = read_component sc ([] : Str) :=
      read_component_rel sc sc2 hrel [] []
    refine ⟨?_, ?_, ?_⟩
    · intro r
      rw [hS1, hS2]
      exact hh r
    · intro q hq
      have hqq : q0 = q := by
        rw [hE1] at hq
        exact Option.some_inj.mp hq
      subst hqq
      rw [hS1, hS2]
      dsimp only
      rw [dictGet_dictSet_self, dictGet_dictSet_self, hvv]
    · intro _ r hr
      rw [hA1] at hr
      exact Option.noConfusion hr
  · rw [hE2, hE1] at hEc
    exact Option.noConfusion hEc
  · rw [hA1, hA2] at hAc
    exact Option.noConfusion hAc
  · rw [hE2, hE1] at hEc
    exact Option.noConfusion hEc
  · have hr00 : r0 = r2 := by
      rw [hA1, hA2] at hAc
      exact (Option.some_inj.mp hAc).symm
    subst hr00
    have hpn : pn = pn2 := by
      rw [hp1] at hp2
      exact Option.some_inj.mp hp2
    subst hpn
    have hrel : compRel ec ec2 := by
      have h := hh r0
      rw [hg1, hg2] at h
      exact h
    refine ⟨?_, ?_, ?_⟩
    · intro r
      rw [hS1, hS2]
      dsimp only
      by_cases hr : r0 = r
      · subst hr
        rw [dictGet_dictSet_self, dictGet_dictSet_self]
        exact affect_state_rel ec ec2 hrel _ _ _ _
      · rw [dictGet_dictSet_ne _ _ _ _ hr, dictGet_dictSet_ne _ _ _ _ hr]
        exact hh r
    · intro q hq
      rw [hE1] at hq
      exact Option.noConfusion hq
    · intro hsig r hr
      have hrr : r0 = r := by
        rw [hA1] at hr
        exact Option.some_inj.mp hr
      subst hrr
      have hgd : dictGetD v.arduino_pins pn (.bool false)
          = dictGetD u.arduino_pins pn (.bool false) := by
        unfold dictGetD
        rw [hsig pn hp1]
      rw [hS1, hS2]
      dsimp only
      rw [dictGet_dictSet_self, dictGet_dictSet_self, hgd,
        affect_state_eq ec ec2 hrel _ _]

/-- A fired board-end write names the wire's own end-pin attribute. -/
theorem wireEndWrite_end_pin (ard : Nat) (s : Sim) (w : Wire) (q : Str)
    (h : wireEndWrite ard s w = some q) : w.end_pin_name = some q := by
  rcases stepWire_shape ard s w with ⟨hE, _, _⟩ |
      ⟨q0, sc, hE, _, hEp, _, _, _⟩ | ⟨r0, ec, pn, _, hE, _, _, _, _⟩
  · rw [hE] at h
    exact Option.noConfusion h
  · rw [hE] at h
    rw [Option.some_inj.mp h] at hEp
    exact hEp
  · rw [hE] at h
    exact Option.noConfusion h

/-- One propagation step never changes the data `wireEndWrite` reads. -/
theorem wireEndWrite_stepWire (ard ard2 : Nat) (s : Sim) (w w2 : Wire) :
    wireEndWrite ard (Sim.stepWire ard2 s w2) w = wireEndWrite ard s w :=
  wireEndWrite_congr ard s (Sim.stepWire ard2 s w2) w
    (stepWire_frame ard2 s w2).2.2.2 (stepWire_heap_rel ard2 s w2)

/-- One propagation step never changes the data `wireAffect` reads. -/
theorem wireAffect_stepWire (ard ard2 : Nat) (s : Sim) (w w2 : Wire) :
    wireAffect ard (Sim.stepWire ard2 s w2) w = wireAffect ard s w :=
  wireAffect_congr ard s (Sim.stepWire ard2 s w2) w
    (stepWire_frame ard2 s w2).2.2.2 (stepWire_heap_rel ard2 s w2)

theorem fold_tbl_frame (ard : Nat) : ∀ (ws : List Wire) (s : Sim) (q : Str),
    (∀ w ∈ ws, wireEndWrite ard s w ≠ some q) →
    dictGet (ws.foldl (Sim.stepWire ard) s).arduino_pins q
      = dictGet s.arduino_pins q := by
  intro ws
  induction ws with
  | nil => exact fun s q _ => rfl
  | cons w t ih =>
    intro s q h
    rw [List.foldl_cons]
    rw [ih (Sim.stepWire ard s w) q (fun w2 hw2 => by
      rw [wireEndWrite_stepWire]
      exact h w2 (List.mem_cons_of_mem w hw2))]
    exact stepWire_tbl_frame ard s w q (h w (List.mem_cons_self w t))

theorem fold_heap_frame (ard : Nat) : ∀ (ws : List Wire) (s : Sim) (r : Nat),
    (∀ w ∈ ws, wireAffect ard s w ≠ some r) →
    dictGet (ws.foldl (Sim.stepWire ard) s).heap r = dictGet s.heap r := by
  intro ws
  induction ws with
  | nil => exact fun s r _ => rfl
  | cons w t ih =>
    intro s r h
    rw [List.foldl_cons]
    rw [ih (Sim.stepWire ard s w) r (fun w2 hw2 => by
      rw [wireAffect_stepWire]
      exact h w2 (List.mem_cons_of_mem w hw2))]
    exact stepWire_heap_frame ard s w r (h w (List.mem_cons_self w t))

theorem fold_heap_rel (ard : Nat) : ∀ (ws : List Wire) (s : Sim) (r : Nat),
    compRelOpt (dictGet s.heap r)
      (dictGet (ws.foldl (Sim.stepWire ard) s).heap r) := by
  intro ws
  induction ws with
  | nil => exact fun s r => compRelOpt_refl _
  | cons w t ih =>
    intro s r
    rw [List.foldl_cons]
    exact compRelOpt_trans (stepWire_heap_rel ard s w r)
      (ih (Sim.stepWire ard s w) r)

theorem fold_heap_keys (ard : Nat) : ∀ (ws : List Wire) (s : Sim),
    dictKeys (ws.foldl (Sim.stepWire ard) s).heap = dictKeys s.heap := by
  intro ws
  induction ws with
  | nil => exact fun s => rfl
  | cons w t ih =>
    intro s
    rw [List.foldl_cons, ih (Sim.stepWire ard s w), stepWire_heap_keys]

/-- Record extensionality for the simulator state. -/
theorem Sim_ext (u v : Sim) (h1 : u.arduino_pins = v.arduino_pins)
    (h2 : u.analog_pins = v.analog_pins) (h3 : u.components = v.components)
    (h4 : u.wires = v.wires) (h5 : u.heap = v.heap) : u = v := by
  cases u
  cases v
  dsimp only at h1 h2 h3 h4 h5
  subst h1
  subst h2
  subst h3
  subst h4
  subst h5
  rfl

/-- Coupled propagation pass, weak form: pointwise heap relatedness is
preserved, table agreement is never broken (board-end writes copy Button
reads, which agree across the relation), and any new heap disagreement
happens at a reference some wire of the pass drives. -/
theorem fold_coupled (ard : Nat) : ∀ (ws : List Wire) (u v : Sim),
    dictKeys v.arduino_pins = dictKeys u.arduino_pins →
    (∀ r, compRelOpt (dictGet u.heap r) (dictGet v.heap r)) →
    (∀ r, compRelOpt (dictGet (ws.foldl (Sim.stepWire ard) u).heap r)
        (dictGet (ws.foldl (Sim.stepWire ard) v).heap r))
    ∧ (∀ q, dictGet u.arduino_pins q = dictGet v.arduino_pins q →
        dictGet (ws.foldl (Sim.stepWire ard) u).arduino_pins q
          = dictGet (ws.foldl (Sim.stepWire ard) v).arduino_pins q)
    ∧ (∀ r, dictGet (ws.foldl (Sim.stepWire ard) u).heap r
          ≠ dictGet (ws.foldl (Sim.stepWire ard) v).heap r →
        dictGet u.heap r ≠ dictGet v.heap r
        ∨ ∃ w ∈ ws, wireAffect ard u w = some r) := by
  intro ws
  induction ws with
  | nil =>
    intro u v hk hh
    exact ⟨hh, fun q h => h, fun r h => Or.inl h⟩
  | cons w t ih =>
    intro u v hk hh
    obtain ⟨m1, m2, m3⟩ := stepWire_coupled ard u v w hk hh
    have hk1 : dictKeys (Sim.stepWire ard v w).arduino_pins
        = dictKeys (Sim.stepWire ard u w).arduino_pins := by
      rw [(stepWire_frame ard v w).2.2.2, (stepWire_frame ard u w).2.2.2]
      exact hk
    obtain ⟨i1, i2, i3⟩ :=
      ih (Sim.stepWire ard u w) (Sim.stepWire ard v w) hk1 m1
    refine ⟨?_, ?_, ?_⟩
    · intro r
      rw [List.foldl_cons, List.foldl_cons]
      exact i1 r
    · intro q hq
      rw [List.foldl_cons, List.foldl_cons]
      apply i2
      by_cases hE : wireEndWrite ard u w = some q
      · exact m2 q hE
      · have hEv : wireEndWrite ard v w ≠ some q := by
          rw [wireEndWrite_congr ard u v w hk hh]
          exact hE
        rw [stepWire_tbl_frame ard u w q hE,
          stepWire_tbl_frame ard v w q hEv]
        exact hq
    · intro r hr
      rw [List.foldl_cons, List.foldl_cons] at hr
      rcases i3 r hr with hdiff | ⟨w2, hw2, hA2⟩
      · by_cases hA : wireAffect ard u w = some r
        · exact Or.inr ⟨w, List.mem_cons_self w t, hA⟩
        · have hAv : wireAffect ard v w ≠ some r := by
            rw [wireAffect_congr ard u v w hk hh]
            exact hA
          rw [stepWire_heap_frame ard u w r hA,
            stepWire_heap_frame ard v w r hAv] at hdiff
          exact Or.inl hdiff
      · rw [wireAffect_stepWire] at hA2
        exact Or.inr ⟨w2, List.mem_cons_of_mem w hw2, hA2⟩

/-- Coupled propagation pass, strong form.  When no pin name is both a
start pin and an end pin of the circuit's wires, and the disagreements
between the two states are confined to sites the remaining pass still
writes, the pass drives the two states to full equality: every pending
write lands with the same value on both sides. -/
theorem pass_sync (ard : Nat) (W : List Wire)
    (hdisj : ∀ w ∈ W, ∀ w2 ∈ W, ∀ q, w.start_pin_name = some q →
      w2.end_pin_name ≠ some q) :
    ∀ (ws : List Wire) (u v : Sim),
    (∀ w ∈ ws, w ∈ W) →
    v.components = u.components → v.wires = u.wires →
    v.analog_pins = u.analog_pins →
    dictKeys v.arduino_pins = dictKeys u.arduino_pins →
    dictKeys v.heap = dictKeys u.heap →
    (dictKeys u.arduino_pins).Nodup →
    (dictKeys u.heap).Nodup →
    (∀ r, compRelOpt (dictGet u.heap r) (dictGet v.heap r)) →
    (∀ q, dictGet u.arduino_pins q ≠ dictGet v.arduino_pins q →
      ∃ w ∈ ws, wireEndWrite ard u w = some q) →
    (∀ r, dictGet u.heap r ≠ dictGet v.heap r →
      ∃ w ∈ ws, wireAffect ard u w = some r) →
    ws.foldl (Sim.stepWire ard) u = ws.foldl (Sim.stepWire ard) v := by
  intro ws
  induction ws with
  | nil =>
    intro u v _ hc hw ha hk hhk hnk hnh hh htbl hheap
    have htbl2 : ∀ q, dictGet u.arduino_pins q = dictGet v.arduino_pins q := by
      intro q
      by_contra hne
      rcases htbl q hne with ⟨w, hw0, _⟩
      exact (List.not_mem_nil w) hw0
    have hheap2 : ∀ r, dictGet u.heap r = dictGet v.heap r := by
      intro r
      by_contra hne
      rcases hheap r hne with ⟨w, hw0, _⟩
      exact (List.not_mem_nil w) hw0
    exact Sim_ext u v (dict_ext _ _ hk.symm hnk htbl2) ha.symm hc.symm
      hw.symm (dict_ext _ _ hhk.symm hnh hheap2)
  | cons w t ih =>
    intro u v hsub hc hw ha hk hhk hnk hnh hh htbl hheap
    rw [List.foldl_cons, List.foldl_cons]
    have hsig : ∀ p, w.start_pin_name = some p →
        dictGet u.arduino_pins p = dictGet v.arduino_pins p := by
      intro p hp
      by_contra hne
      rcases htbl p hne with ⟨w2, hw2, hE2⟩
      exact hdisj w (hsub w (List.mem_cons_self w t)) w2 (hsub w2 hw2) p hp
        (wireEndWrite_end_pin ard u w2 p hE2)
    obtain ⟨m1, m2, m3⟩ := stepWire_coupled ard u v w hk hh
    refine ih (Sim.stepWire ard u w) (Sim.stepWire ard v w)
      ?_ ?_ ?_ ?_ ?_ ?_ ?_ ?_ ?_ ?_ ?_
    · exact fun w2 hw2 => hsub w2 (List.mem_cons_of_mem w hw2)
    · rw [(stepWire_frame ard v w).2.1, (stepWire_frame ard u w).2.1]
      exact hc
    · rw [(stepWire_frame ard v w).2.2.1, (stepWire_frame ard u w).2.2.1]
      exact hw
    · rw [(stepWire_frame ard v w).1, (stepWire_frame ard u w).1]
      exact ha
    · rw [(stepWire_frame ard v w).2.2.2, (stepWire_frame ard u w).2.2.2]
      exact hk
    · rw [stepWire_heap_keys, stepWire_heap_keys]
      exact hhk
    · rw [(stepWire_frame ard u w).2.2.2]
      exact hnk
    · rw [stepWire_heap_keys]
      exact hnh
    · exact m1
    · intro q hdiff1
      by_cases hE : wireEndWrite ard u w = some q
      · exact absurd (m2 q hE) hdiff1
      · have hEv : wireEndWrite ard v w ≠ some q := by
          rw [wireEndWrite_congr ard u v w hk hh]
          exact hE
        rw [stepWire_tbl_frame ard u w q hE,
          stepWire_tbl_frame ard v w q hEv] at hdiff1
        rcases htbl q hdiff1 with ⟨w2, hw2, hE2⟩
        rcases List.mem_cons.mp hw2 with he | ht2
        · rw [he] at hE2
          exact absurd hE2 hE
        · exact ⟨w2, ht2, by rw [wireEndWrite_stepWire]; exact hE2⟩
    · intro r hdiff1
      by_cases hA : wireAffect ard u w = some r
      · exact absurd (m3 hsig r hA) hdiff1
      · have hAv : wireAffect ard v w ≠ some r := by
          rw [wireAffect_congr ard u v w hk hh]
          exact hA
        rw [stepWire_heap_frame ard u w r hA,
          stepWire_heap_frame ard v w r hAv] at hdiff1
        rcases hheap r hdiff1 with ⟨w2, hw2, hA2⟩
        rcases List.mem_cons.mp hw2 with he | ht2
        · rw [he] at hA2
          exact absurd hA2 hA
        · exact ⟨w2, ht2, by rw [wireAffect_stepWire]; exact hA2⟩

/-- Branch analysis of `execLine`: a line is a no-op, or it performs the
table write classified by `lineOp` through `set_pin`. -/
theorem execLine_cases (s : Sim) (l : Str) :
    (lineOp s.arduino_pins l = none ∧ s.execLine l = s)
    ∨ ∃ k x, lineOp s.arduino_pins l = some (k, x)
        ∧ dictMem s.arduino_pins k = true
        ∧ s.execLine l = s.set_pin k x := by
  unfold Sim.execLine lineOp
  dsimp only
  cases hc1 : containsSub "digitalWrite".data (stripChars l) with
  | true =>
    cases hs : searchPat "digitalWrite".data isWordChar (stripChars l) with
    | none => exact Or.inl ⟨rfl, rfl⟩
    | some pr =>
      obtain ⟨pin, value⟩ := pr
      dsimp only
      cases hm : dictMem s.arduino_pins pin with
      | true => exact Or.inr ⟨pin, _, rfl, hm, rfl⟩
      | false => exact Or.inl ⟨rfl, rfl⟩
  | false =>
    cases hc2 : containsSub "analogWrite".data (stripChars l) with
    | true =>
      cases hs : searchPat "analogWrite".data Char.isDigit (stripChars l) with
      | none => exact Or.inl ⟨rfl, rfl⟩
      | some pr =>
        obtain ⟨pin, value⟩ := pr
        dsimp only
        cases hm : dictMem s.arduino_pins pin with
        | true => exact Or.inr ⟨pin, _, rfl, hm, rfl⟩
        | false => exact Or.inl ⟨rfl, rfl⟩
    | false => exact Or.inl ⟨rfl, rfl⟩

/-- `lineOp` reads the table only through its key sequence. -/
theorem lineOp_congr (t t2 : Dict Str PyVal) (h : dictKeys t = dictKeys t2)
    (l : Str) : lineOp t l = lineOp t2 l := by
  unfold lineOp
  dsimp only
  by_cases h1 : containsSub "digitalWrite".data (stripChars l) = true
  · rw [if_pos h1, if_pos h1]
    cases searchPat "digitalWrite".data isWordChar (stripChars l) with
    | none => rfl
    | some pr =>
      obtain ⟨pin, value⟩ := pr
      dsimp only
      rw [dictMem_congr t t2 h pin]
  · rw [if_neg h1, if_neg h1]
    by_cases h2 : containsSub "analogWrite".data (stripChars l) = true
    · rw [if_pos h2, if_pos h2]
      cases searchPat "analogWrite".data Char.isDigit (stripChars l) with
      | none => rfl
      | some pr =>
        obtain ⟨pin, value⟩ := pr
        dsimp only
        rw [dictMem_congr t t2 h pin]
    · rw [if_neg h2, if_neg h2]

theorem hasOp_congr (t t2 : Dict Str PyVal) (h : dictKeys t = dictKeys t2) :
    ∀ (ls : List Str), hasOp t ls = hasOp t2 ls := by
  intro ls
  induction ls with
  | nil => rfl
  | cons l ls2 ih =>
    show ((lineOp t l).isSome || hasOp t ls2)
      = ((lineOp t2 l).isSome || hasOp t2 ls2)
    rw [lineOp_congr t t2 h l, ih]

theorem hasOp_eq_false (t : Dict Str PyVal) :
    ∀ (ls : List Str), hasOp t ls = false →
    ∀ l ∈ ls, lineOp t l = none := by
  intro ls
  induction ls with
  | nil =>
    intro _ l hl
    exact absurd hl (List.not_mem_nil l)
  | cons a ls2 ih =>
    intro h l hl
    have h2 : ((lineOp t a).isSome || hasOp t ls2) = false := h
    rcases List.mem_cons.mp hl with he | ht
    · subst he
      cases ho : lineOp t l with
      | none => rfl
      | some x =>
        rw [ho] at h2
        exact absurd h2 (by simp)
    · cases hb : hasOp t ls2 with
      | false => exact ih hb l ht
      | true =>
        rw [hb] at h2
        exact absurd h2 (by simp)

def writePin (s : Sim) (k : Str) (x : PyVal) : Sim :=
  { s with arduino_pins := dictSet s.arduino_pins k x }

theorem set_pin_of_mem (s : Sim) (k : Str) (x : PyVal)
    (h : dictMem s.arduino_pins k = true) :
    s.set_pin k x = (writePin s k x).propagate_signals := by
  unfold Sim.set_pin writePin
  dsimp only
  rw [if_pos h]

theorem firedEnd_congr (u v : Sim) (hc : v.components = u.components)
    (hk : dictKeys v.arduino_pins = dictKeys u.arduino_pins)
    (hh : ∀ r, compRelOpt (dictGet u.heap r) (dictGet v.heap r)) (w : Wire) :
    firedEnd v w = firedEnd u w := by
  unfold firedEnd
  rw [findArduino_congr u v hc hh]
  cases u.findArduino with
  | none => rfl
  | some ard => exact wireEndWrite_congr ard u v w hk hh

theorem firedAff_congr (u v : Sim) (hc : v.components = u.components)
    (hk : dictKeys v.arduino_pins = dictKeys u.arduino_pins)
    (hh : ∀ r, compRelOpt (dictGet u.heap r) (dictGet v.heap r)) (w : Wire) :
    firedAff v w = firedAff u w := by
  unfold firedAff
  rw [findArduino_congr u v hc hh]
  cases u.findArduino with
  | none => rfl
  | some ard => exact wireAffect_congr ard u v w hk hh

theorem propagate_heap_rel (s : Sim) (r : Nat) :
    compRelOpt (dictGet s.heap r) (dictGet s.propagate_signals.heap r) := by
  unfold Sim.propagate_signals
  cases s.findArduino with
  | none => exact compRelOpt_refl _
  | some ard => exact fold_heap_rel ard s.wires s r

theorem propagate_heap_keys (s : Sim) :
    dictKeys s.propagate_signals.heap = dictKeys s.heap := by
  unfold Sim.propagate_signals
  cases s.findArduino with
  | none => rfl
  | some ard => exact fold_heap_keys ard s.wires s

theorem execLine_heap_rel (s : Sim) (l : Str) (r : Nat) :
    compRelOpt (dictGet s.heap r) (dictGet (s.execLine l).heap r) := by
  rcases execLine_cases s l with ⟨_, he⟩ | ⟨k, x, _, hm, he⟩
  · rw [he]
    exact compRelOpt_refl _
  · rw [he, set_pin_of_mem s k x hm]
    exact propagate_heap_rel (writePin s k x) r

theorem execLine_heap_keys (s : Sim) (l : Str) :
    dictKeys (s.execLine l).heap = dictKeys s.heap := by
  rcases execLine_cases s l with ⟨_, he⟩ | ⟨k, x, _, hm, he⟩
  · rw [he]
  · rw [he, set_pin_of_mem s k x hm, propagate_heap_keys]
    rfl

/-- Weak coupled propagation: relatedness and table agreement survive a
full pass, and heap disagreement is confined to driven references. -/
theorem propagate_coupled (u v : Sim)
    (hc : v.components = u.components) (hw : v.wires = u.wires)
    (hk : dictKeys v.arduino_pins = dictKeys u.arduino_pins)
    (hh : ∀ r, compRelOpt (dictGet u.heap r) (dictGet v.heap r)) :
    (∀ r, compRelOpt (dictGet u.propagate_signals.heap r)
        (dictGet v.propagate_signals.heap r))
    ∧ (∀ q, dictGet u.arduino_pins q = dictGet v.arduino_pins q →
        dictGet u.propagate_signals.arduino_pins q
          = dictGet v.propagate_signals.arduino_pins q)
    ∧ (∀ r, dictGet u.propagate_signals.heap r
          ≠ dictGet v.propagate_signals.heap r →
        dictGet u.heap r ≠ dictGet v.heap r
        ∨ ∃ w ∈ u.wires, firedAff u w = some r) := by
  unfold Sim.propagate_signals
  rw [findArduino_congr u v hc hh, hw]
  cases hard : u.findArduino with
  | none =>
    dsimp only
    exact ⟨hh, fun q h => h, fun r h => Or.inl h⟩
  | some ard =>
    dsimp only
    obtain ⟨f1, f2, f3⟩ := fold_coupled ard u.wires u v hk hh
    refine ⟨f1, f2, ?_⟩
    intro r hr
    rcases f3 r hr with hd | ⟨w2, hw2, hA⟩
    · exact Or.inl hd
    · refine Or.inr ⟨w2, hw2, ?_⟩
      unfold firedAff
      rw [hard]
      exact hA

/-- A line leaves a table entry alone unless its own statement writes the
pin or some wire's board-end branch writes it. -/
theorem execLine_tbl_frame (s : Sim) (l : Str) (q : Str)
    (h1 : ∀ x, lineOp s.arduino_pins l ≠ some (q, x))
    (h2 : ∀ w ∈ s.wires, firedEnd s w ≠ some q) :
    dictGet (s.execLine l).arduino_pins q = dictGet s.arduino_pins q := by
  rcases execLine_cases s l with ⟨_, he⟩ | ⟨k, x, hop, hm, he⟩
  · rw [he]
  · have hkq : ¬ k = q := fun he2 => h1 x (he2 ▸ hop)
    rw [he, set_pin_of_mem s k x hm]
    unfold writePin
    have hfa : Sim.findArduino
        { s with arduino_pins := dictSet s.arduino_pins k x }
        = s.findArduino := rfl
    unfold Sim.propagate_signals
    rw [hfa]
    cases hard : s.findArduino with
    | none =>
      dsimp only
      exact dictGet_dictSet_ne _ _ _ _ hkq
    | some ard =>
      dsimp only
      have hWE : ∀ w2, wireEndWrite ard
          { s with arduino_pins := dictSet s.arduino_pins k x } w2
          = wireEndWrite ard s w2 := fun w2 =>
        wireEndWrite_congr ard s _ w2
          (dictKeys_dictSet_of_mem _ _ _ hm) (fun r => compRelOpt_refl _)
      rw [fold_tbl_frame ard s.wires _ q (fun w2 hw2 => by
        rw [hWE w2]
        have h3 := h2 w2 hw2
        unfold firedEnd at h3
        rw [hard] at h3
        exact h3)]
      exact dictGet_dictSet_ne _ _ _ _ hkq

/-- A line leaves a heap entry alone unless some wire's board-start
branch drives it. -/
theorem execLine_heap_frame (s : Sim) (l : Str) (r : Nat)
    (h2 : ∀ w ∈ s.wires, firedAff s w ≠ some r) :
    dictGet (s.execLine l).heap r = dictGet s.heap r := by
  rcases execLine_cases s l with ⟨_, he⟩ | ⟨k, x, hop, hm, he⟩
  · rw [he]
  · rw [he, set_pin_of_mem s k x hm]
    unfold writePin
    have hfa : Sim.findArduino
        { s with arduino_pins := dictSet s.arduino_pins k x }
        = s.findArduino := rfl
    unfold Sim.propagate_signals
    rw [hfa]
    cases hard : s.findArduino with
    | none => rfl
    | some ard =>
      dsimp only
      have hWA : ∀ w2, wireAffect ard
          { s with arduino_pins := dictSet s.arduino_pins k x } w2
          = wireAffect ard s w2 := fun w2 =>
        wireAffect_congr ard s _ w2
          (dictKeys_dictSet_of_mem _ _ _ hm) (fun r2 => compRelOpt_refl _)
      rw [fold_heap_frame ard s.wires _ r (fun w2 hw2 => by
        rw [hWA w2]
        have h3 := h2 w2 hw2
        unfold firedAff at h3
        rw [hard] at h3
        exact h3)]

theorem propagate_eq_fold (s : Sim) (ard : Nat)
    (h : s.findArduino = some ard) :
    s.propagate_signals = s.wires.foldl (Sim.stepWire ard) s := by
  unfold Sim.propagate_signals
  rw [h]

/-- The coupled run of the remaining program lines.  The second run's
state may differ from the first only at board pins some wire still
rewrites or some remaining statement still writes, and on LED states a
pending drive will overwrite; under the start/end pin discipline both
runs then converge to the same final state, provided at least one
statement actually fires (or the states already coincide). -/
theorem runLines_sync :
    ∀ (ls : List Str) (u v : Sim),
    v.components = u.components →
    v.wires = u.wires →
    v.analog_pins = u.analog_pins →
    dictKeys v.arduino_pins = dictKeys u.arduino_pins →
    dictKeys v.heap = dictKeys u.heap →
    (dictKeys u.arduino_pins).Nodup →
    (dictKeys u.heap).Nodup →
    (∀ r, compRelOpt (dictGet u.heap r) (dictGet v.heap r)) →
    (∀ w ∈ u.wires, ∀ w2 ∈ u.wires, ∀ q, w.start_pin_name = some q →
      w2.end_pin_name ≠ some q) →
    (∀ q, dictGet u.arduino_pins q ≠ dictGet v.arduino_pins q →
      (∃ w ∈ u.wires, firedEnd u w = some q)
      ∨ ∃ l ∈ ls, ∃ x, lineOp u.arduino_pins l = some (q, x)) →
    (∀ r, dictGet u.heap r ≠ dictGet v.heap r →
      ∃ w ∈ u.wires, firedAff u w = some r) →
    (hasOp u.arduino_pins ls = true ∨ u = v) →
    ls.foldl Sim.execLine u = ls.foldl Sim.execLine v := by
  intro ls
  induction ls with
  | nil =>
    intro u v _ _ _ _ _ _ _ _ _ _ _ hprog
    rcases hprog with hT | hE
    · exact Bool.noConfusion hT
    · rw [hE]
  | cons l ls ih =>
    intro u v hc hw ha hk hhk hnk hnh hh hdisj htbl hheap hprog
    rcases execLine_cases u l with ⟨hop, hu⟩ | ⟨k, x, hop, hmem, hu⟩
    · have hopv : lineOp v.arduino_pins l = none := by
        rw [lineOp_congr v.arduino_pins u.arduino_pins hk l]
        exact hop
      have hv : v.execLine l = v := by
        rcases execLine_cases v l with ⟨_, hv0⟩ | ⟨k2, x2, hop2, _, _⟩
        · exact hv0
        · rw [hopv] at hop2
          exact Option.noConfusion hop2
      rw [List.foldl_cons, List.foldl_cons, hu, hv]
      refine ih u v hc hw ha hk hhk hnk hnh hh hdisj ?_ hheap ?_
      · intro q hdq
        rcases htbl q hdq with hfired | ⟨l2, hl2, x2, hop2⟩
        · exact Or.inl hfired
        · rcases List.mem_cons.mp hl2 with he2 | ht2
          · rw [he2, hop] at hop2
            exact Option.noConfusion hop2
          · exact Or.inr ⟨l2, ht2, x2, hop2⟩
      · rcases hprog with hT | hE
        · have hT2 : ((lineOp u.arduino_pins l).isSome
              || hasOp u.arduino_pins ls) = true := hT
          rw [hop] at hT2
          simp only [Option.isSome_none, Bool.false_or] at hT2
          exact Or.inl hT2
        · exact Or.inr hE
    · have hmemv : dictMem v.arduino_pins k = true := by
        rw [dictMem_congr v.arduino_pins u.arduino_pins hk k]
        exact hmem
      have hopv : lineOp v.arduino_pins l = some (k, x) := by
        rw [lineOp_congr v.arduino_pins u.arduino_pins hk l]
        exact hop
      have hv : v.execLine l = v.set_pin k x := by
        rcases execLine_cases v l with ⟨hop2, _⟩ | ⟨k2, x2, hop2, hm2, hv0⟩
        · rw [hopv] at hop2
          exact Option.noConfusion hop2
        · rw [hopv] at hop2
          injection hop2 with hpr
          injection hpr with h1 h2
          subst h1
          subst h2
          exact hv0
      have hkw : dictKeys (dictSet u.arduino_pins k x)
          = dictKeys u.arduino_pins := dictKeys_dictSet_of_mem _ _ _ hmem
      have hkwv : dictKeys (dictSet v.arduino_pins k x)
          = dictKeys v.arduino_pins := dictKeys_dictSet_of_mem _ _ _ hmemv
      have hk2 : dictKeys (writePin v k x).arduino_pins
          = dictKeys (writePin u k x).arduino_pins := by
        show dictKeys (dictSet v.arduino_pins k x)
          = dictKeys (dictSet u.arduino_pins k x)
        rw [hkw, hkwv, hk]
      obtain ⟨p1, p2, p3⟩ := propagate_coupled (writePin u k x)
        (writePin v k x) hc hw hk2 hh
      have hdiffw : ∀ q, dictGet (writePin u k x).arduino_pins q
          ≠ dictGet (writePin v k x).arduino_pins q →
          ¬ k = q ∧ dictGet u.arduino_pins q ≠ dictGet v.arduino_pins q := by
        intro q hdq
        by_cases hkq : k = q
        · subst hkq
          exfalso
          apply hdq
          show dictGet (dictSet u.arduino_pins k x) k
            = dictGet (dictSet v.arduino_pins k x) k
          rw [dictGet_dictSet_self, dictGet_dictSet_self]
        · refine ⟨hkq, ?_⟩
          intro hEq
          apply hdq
          show dictGet (dictSet u.arduino_pins k x) q
            = dictGet (dictSet v.arduino_pins k x) q
          rw [dictGet_dictSet_ne _ _ _ _ hkq,
            dictGet_dictSet_ne _ _ _ _ hkq, hEq]
      rw [List.foldl_cons, List.foldl_cons, hu, hv,
        set_pin_of_mem u k x hmem, set_pin_of_mem v k x hmemv]
      by_cases hrest : hasOp u.arduino_pins ls = true
      · have hcompu : (writePin u k x).propagate_signals.components
            = u.components := (propagate_frame (writePin u k x)).2.1
        have hwiresu : (writePin u k x).propagate_signals.wires
            = u.wires := (propagate_frame (writePin u k x)).2.2.1
        have hanau : (writePin u k x).propagate_signals.analog_pins
            = u.analog_pins := (propagate_frame (writePin u k x)).1
        have hkeysu : dictKeys (writePin u k x).propagate_signals.arduino_pins
            = dictKeys u.arduino_pins := by
          rw [(propagate_frame (writePin u k x)).2.2.2]
          exact hkw
        have hhku : dictKeys (writePin u k x).propagate_signals.heap
            = dictKeys u.heap := propagate_heap_keys (writePin u k x)
        have hrelu : ∀ r, compRelOpt (dictGet u.heap r)
            (dictGet (writePin u k x).propagate_signals.heap r) :=
          fun r => propagate_heap_rel (writePin u k x) r
        have hFEu : ∀ w2, firedEnd (writePin u k x).propagate_signals w2
            = firedEnd u w2 :=
          fun w2 => firedEnd_congr u _ hcompu hkeysu hrelu w2
        have hFAu : ∀ w2, firedAff (writePin u k x).propagate_signals w2
            = firedAff u w2 :=
          fun w2 => firedAff_congr u _ hcompu hkeysu hrelu w2
        have hcompv : (writePin v k x).propagate_signals.components
            = v.components := (propagate_frame (writePin v k x)).2.1
        have hwiresv : (writePin v k x).propagate_signals.wires
            = v.wires := (propagate_frame (writePin v k x)).2.2.1
        have hanav : (writePin v k x).propagate_signals.analog_pins
            = v.analog_pins := (propagate_frame (writePin v k x)).1
        have hkeysv : dictKeys (writePin v k x).propagate_signals.arduino_pins
            = dictKeys v.arduino_pins := by
          rw [(propagate_frame (writePin v k x)).2.2.2]
          exact hkwv
        have hhkv : dictKeys (writePin v k x).propagate_signals.heap
            = dictKeys v.heap := propagate_heap_keys (writePin v k x)
        refine ih (writePin u k x).propagate_signals
          (writePin v k x).propagate_signals
          ?_ ?_ ?_ ?_ ?_ ?_ ?_ ?_ ?_ ?_ ?_ ?_
        · rw [hcompv, hcompu]
          exact hc
        · rw [hwiresv, hwiresu]
          exact hw
        · rw [hanav, hanau]
          exact ha
        · rw [hkeysv, hkeysu]
          exact hk
        · rw [hhkv, hhku]
          exact hhk
        · rw [hkeysu]
          exact hnk
        · rw [hhku]
          exact hnh
        · exact p1
        · intro w2 hw2 w3 hw3 q hq
          rw [hwiresu] at hw2 hw3
          exact hdisj w2 hw2 w3 hw3 q hq
        · intro q hdq
          have hdw : dictGet (writePin u k x).arduino_pins q
              ≠ dictGet (writePin v k x).arduino_pins q := by
            intro hEq
            exact hdq (p2 q hEq)
          obtain ⟨hkq, hduv⟩ := hdiffw q hdw
          rcases htbl q hduv with ⟨w2, hw2, hfe⟩ | ⟨l2, hl2, x2, hop2⟩
          · refine Or.inl ⟨w2, ?_, ?_⟩
            · rw [hwiresu]
              exact hw2
            · rw [hFEu w2]
              exact hfe
          · rcases List.mem_cons.mp hl2 with he2 | ht2
            · exfalso
              rw [he2, hop] at hop2
              injection hop2 with hpr
              injection hpr with h1 h2
              exact hkq h1
            · refine Or.inr ⟨l2, ht2, x2, ?_⟩
              rw [lineOp_congr
                (writePin u k x).propagate_signals.arduino_pins
                u.arduino_pins hkeysu l2]
              exact hop2
        · intro r hdr
          rcases p3 r hdr with hduv | ⟨w2, hw2, hfa⟩
          · rcases hheap r hduv with ⟨w2, hw2, hfa⟩
            refine ⟨w2, ?_, ?_⟩
            · rw [hwiresu]
              exact hw2
            · rw [hFAu w2]
              exact hfa
          · have hfa2 : firedAff u w2 = some r := by
              rw [firedAff_congr u (writePin u k x) rfl hkw
                (fun r2 => compRelOpt_refl _) w2] at hfa
              exact hfa
            refine ⟨w2, ?_, ?_⟩
            · rw [hwiresu]
              exact hw2
            · rw [hFAu w2]
              exact hfa2
        · refine Or.inl ?_
          rw [hasOp_congr (writePin u k x).propagate_signals.arduino_pins
            u.arduino_pins hkeysu ls]
          exact hrest
      · have hrestF : hasOp u.arduino_pins ls = false := bool_eq_false hrest
        have hnoop := hasOp_eq_false u.arduino_pins ls hrestF
        have htblw : ∀ q, dictGet (writePin u k x).arduino_pins q
            ≠ dictGet (writePin v k x).arduino_pins q →
            ∃ w2 ∈ u.wires, firedEnd u w2 = some q := by
          intro q hdq
          obtain ⟨hkq, hduv⟩ := hdiffw q hdq
          rcases htbl q hduv with hfired | ⟨l2, hl2, x2, hop2⟩
          · exact hfired
          · exfalso
            rcases List.mem_cons.mp hl2 with he2 | ht2
            · rw [he2, hop] at hop2
              injection hop2 with hpr
              injection hpr with h1 h2
              exact hkq h1
            · rw [hnoop l2 ht2] at hop2
              exact Option.noConfusion hop2
        cases hard : u.findArduino with
        | none =>
          have htbleq : ∀ q, dictGet (writePin u k x).arduino_pins q
              = dictGet (writePin v k x).arduino_pins q := by
            intro q
            by_contra hne
            rcases htblw q hne with ⟨w2, _, hfe⟩
            unfold firedEnd at hfe
            rw [hard] at hfe
            exact Option.noConfusion hfe
          have hheapeq : ∀ r, dictGet u.heap r = dictGet v.heap r := by
            intro r
            by_contra hne
            rcases hheap r hne with ⟨w2, _, hfa⟩
            unfold firedAff at hfa
            rw [hard] at hfa
            exact Option.noConfusion hfa
          have hweq : writePin u k x = writePin v k x := by
            refine Sim_ext _ _ ?_ ?_ ?_ ?_ ?_
            · refine dict_ext _ _ hk2.symm ?_ htbleq
              show (dictKeys (dictSet u.arduino_pins k x)).Nodup
              rw [hkw]
              exact hnk
            · exact ha.symm
            · exact hc.symm
            · exact hw.symm
            · exact dict_ext _ _ hhk.symm hnh hheapeq
          rw [hweq]
        | some ard =>
          have hfav : v.findArduino = some ard := by
            rw [findArduino_congr u v hc hh]
            exact hard
          have hu1 : (writePin u k x).propagate_signals
              = (writePin u k x).wires.foldl (Sim.stepWire ard)
                (writePin u k x) := propagate_eq_fold _ ard hard
          have hv1 : (writePin v k x).propagate_signals
              = (writePin v k x).wires.foldl (Sim.stepWire ard)
                (writePin v k x) := propagate_eq_fold _ ard hfav
          have hsync : u.wires.foldl (Sim.stepWire ard) (writePin u k x)
              = u.wires.foldl (Sim.stepWire ard) (writePin v k x) := by
            refine pass_sync ard u.wires hdisj u.wires (writePin u k x)
              (writePin v k x) (fun w2 h2 => h2)
              ?_ ?_ ?_ ?_ ?_ ?_ ?_ ?_ ?_ ?_
            · exact hc
            · exact hw
            · exact ha
            · exact hk2
            · exact hhk
            · show (dictKeys (dictSet u.arduino_pins k x)).Nodup
              rw [hkw]
              exact hnk
            · exact hnh
            · exact hh
            · intro q hdq
              rcases htblw q hdq with ⟨w2, hw2, hfe⟩
              refine ⟨w2, hw2, ?_⟩
              unfold firedEnd at hfe
              rw [hard] at hfe
              rw [wireEndWrite_congr ard u (writePin u k x) w2 hkw
                (fun r2 => compRelOpt_refl _)]
              exact hfe
            · intro r hdr
              rcases hheap r hdr with ⟨w2, hw2, hfa⟩
              refine ⟨w2, hw2, ?_⟩
              unfold firedAff at hfa
              rw [hard] at hfa
              rw [wireAffect_congr ard u (writePin u k x) w2 hkw
                (fun r2 => compRelOpt_refl _)]
              exact hfa
          have hfix : (writePin u k x).propagate_signals
              = (writePin v k x).propagate_signals := by
            rw [hu1, hv1]
            show u.wires.foldl (Sim.stepWire ard) (writePin u k x)
              = v.wires.foldl (Sim.stepWire ard) (writePin v k x)
            rw [hw]
            exact hsync
          rw [hfix]

theorem foldl_execLine_heap_keys : ∀ (ls : List Str) (s : Sim),
    dictKeys (ls.foldl Sim.execLine s).heap = dictKeys s.heap := by
  intro ls
  induction ls with
  | nil => exact fun s => rfl
  | cons l ls ih =>
    intro s
    rw [List.foldl_cons, ih (s.execLine l), execLine_heap_keys]

theorem foldl_execLine_heap_rel : ∀ (ls : List Str) (s : Sim) (r : Nat),
    compRelOpt (dictGet s.heap r)
      (dictGet (ls.foldl Sim.execLine s).heap r) := by
  intro ls
  induction ls with
  | nil => exact fun s r => compRelOpt_refl _
  | cons l ls ih =>
    intro s r
    rw [List.foldl_cons]
    exact compRelOpt_trans (execLine_heap_rel s l r) (ih (s.execLine l) r)

theorem foldl_execLine_noop : ∀ (ls : List Str) (s : Sim),
    (∀ l ∈ ls, lineOp s.arduino_pins l = none) →
    ls.foldl Sim.execLine s = s := by
  intro ls
  induction ls with
  | nil => exact fun s _ => rfl
  | cons l ls ih =>
    intro s h
    rcases execLine_cases s l with ⟨_, he⟩ | ⟨k, x, hop, _, _⟩
    · rw [List.foldl_cons, he]
      exact ih s (fun l2 hl2 => h l2 (List.mem_cons_of_mem l hl2))
    · rw [h l (List.mem_cons_self l ls)] at hop
      exact Option.noConfusion hop

/-- Any change `execute_code` makes to a digital table entry is due to
a statement writing that pin or a wire's board-end branch writing it. -/
theorem foldl_execLine_tbl_char : ∀ (ls : List Str) (s : Sim) (q : Str),
    dictGet (ls.foldl Sim.execLine s).arduino_pins q
      ≠ dictGet s.arduino_pins q →
    (∃ w ∈ s.wires, firedEnd s w = some q)
    ∨ ∃ l ∈ ls, ∃ x, lineOp s.arduino_pins l = some (q, x) := by
  intro ls
  induction ls with
  | nil =>
    intro s q hd
    exact absurd rfl hd
  | cons l ls ih =>
    intro s q hd
    rw [List.foldl_cons] at hd
    by_cases hstep : dictGet (s.execLine l).arduino_pins q
        = dictGet s.arduino_pins q
    · have hd2 : dictGet (ls.foldl Sim.execLine (s.execLine l)).arduino_pins q
          ≠ dictGet (s.execLine l).arduino_pins q := by
        rw [hstep]
        exact hd
      rcases ih (s.execLine l) q hd2 with ⟨w2, hw2, hfe⟩ | ⟨l2, hl2, x2, hop2⟩
      · left
        rw [(execLine_frame s l).2.2.1] at hw2
        rw [firedEnd_congr s (s.execLine l) (execLine_frame s l).2.1
          (execLine_frame s l).2.2.2 (fun r => execLine_heap_rel s l r) w2]
          at hfe
        exact ⟨w2, hw2, hfe⟩
      · right
        rw [lineOp_congr (s.execLine l).arduino_pins s.arduino_pins
          (execLine_frame s l).2.2.2 l2] at hop2
        exact ⟨l2, List.mem_cons_of_mem l hl2, x2, hop2⟩
    · rcases execLine_cases s l with ⟨hop, he⟩ | ⟨k, x, hop, hmem, he⟩
      · rw [he] at hstep
        exact absurd rfl hstep
      · by_cases hkq : k = q
        · subst hkq
          exact Or.inr ⟨l, List.mem_cons_self l ls, x, hop⟩
        · left
          by_contra hnf
          refine hstep (execLine_tbl_frame s l q ?_ ?_)
          · intro x2 hop2
            rw [hop] at hop2
            injection hop2 with hpr
            injection hpr with h1 h2
            exact hkq h1
          · intro w2 hw2 hfe
            exact hnf ⟨w2, hw2, hfe⟩

/-- Any change `execute_code` makes to the heap is an LED drive through
a wire's board-start branch. -/
theorem foldl_execLine_heap_char : ∀ (ls : List Str) (s : Sim) (r : Nat),
    dictGet (ls.foldl Sim.execLine s).heap r ≠ dictGet s.heap r →
    ∃ w ∈ s.wires, firedAff s w = some r := by
  intro ls
  induction ls with
  | nil =>
    intro s r hd
    exact absurd rfl hd
  | cons l ls ih =>
    intro s r hd
    rw [List.foldl_cons] at hd
    by_cases hstep : dictGet (s.execLine l).heap r = dictGet s.heap r
    · have hd2 : dictGet (ls.foldl Sim.execLine (s.execLine l)).heap r
          ≠ dictGet (s.execLine l).heap r := by
        rw [hstep]
        exact hd
      obtain ⟨w2, hw2, hfa⟩ := ih (s.execLine l) r hd2
      rw [(execLine_frame s l).2.2.1] at hw2
      rw [firedAff_congr s (s.execLine l) (execLine_frame s l).2.1
        (execLine_frame s l).2.2.2 (fun r2 => execLine_heap_rel s l r2) w2]
        at hfa
      exact ⟨w2, hw2, hfa⟩
    · by_contra hnf
      refine hstep (execLine_heap_frame s l r ?_)
      intro w2 hw2 hfa
      exact hnf ⟨w2, hw2, hfa⟩

/-- Claim C9, amended.  Running the same source twice against the same
circuit is idempotent PROVIDED no pin name is both some wire's start pin
and some wire's end pin (the counterexample `C9_counterexample` shows the
hypothesis is necessary: a pin that is read by one wire and written by
another lets the second run observe a value the first run only produced
mid-way).  The Nodup hypotheses state that the pin table and the object
store have no duplicate keys, which holds for every simulator built by
`__init__`/`load_circuit`. -/
theorem C9_amended (s : Sim) (code : Str)
    (hdisj : ∀ w ∈ s.wires, ∀ w2 ∈ s.wires, ∀ q,
      w.start_pin_name = some q → w2.end_pin_name ≠ some q)
    (hnk : (dictKeys s.arduino_pins).Nodup)
    (hnh : (dictKeys s.heap).Nodup) :
    (s.execute_code code).execute_code code = s.execute_code code := by
  have key : (splitNl code).foldl Sim.execLine s
      = (splitNl code).foldl Sim.execLine (s.execute_code code) := by
    refine runLines_sync (splitNl code) s (s.execute_code code)
      ?_ ?_ ?_ ?_ ?_ hnk hnh ?_ hdisj ?_ ?_ ?_
    · exact (foldl_execLine_frame (splitNl code) s).2.1
    · exact (foldl_execLine_frame (splitNl code) s).2.2.1
    · exact (foldl_execLine_frame (splitNl code) s).1
    · exact (foldl_execLine_frame (splitNl code) s).2.2.2
    · exact foldl_execLine_heap_keys (splitNl code) s
    · exact fun r => foldl_execLine_heap_rel (splitNl code) s r
    · exact fun q hd => foldl_execLine_tbl_char (splitNl code) s q (Ne.symm hd)
    · exact fun r hd => foldl_execLine_heap_char (splitNl code) s r (Ne.symm hd)
    · by_cases hopc : hasOp s.arduino_pins (splitNl code) = true
      · exact Or.inl hopc
      · refine Or.inr ?_
        exact (foldl_execLine_noop (splitNl code) s
          (hasOp_eq_false s.arduino_pins (splitNl code)
            (bool_eq_false hopc))).symm
  exact key.symm

/-- The board–LED circuit used to witness the amended claim C9: one wire
from the board's `D2` to the LED's `Anode`; no pin name is both a start
and an end pin. -/
def c9wSim : Sim :=
  Sim.init.load_circuit [(0, boardDefault), (1, ledDefault)]
    [⟨some 0, some "D2".data, some 1, some "Anode".data⟩]

theorem C9_witness :
    ((∀ w ∈ c9wSim.wires, ∀ w2 ∈ c9wSim.wires, ∀ q,
        w.start_pin_name = some q → w2.end_pin_name ≠ some q)
      ∧ (dictKeys c9wSim.arduino_pins).Nodup
      ∧ (dictKeys c9wSim.heap).Nodup)
    ∧ (c9wSim.execute_code "digitalWrite(D2, HIGH)".data).execute_code
        "digitalWrite(D2, HIGH)".data
      = c9wSim.execute_code "digitalWrite(D2, HIGH)".data := by
  have hdisj : ∀ w ∈ c9wSim.wires, ∀ w2 ∈ c9wSim.wires, ∀ q,
      w.start_pin_name = some q → w2.end_pin_name ≠ some q := by
    intro w hw w2 hw2 q hq
    have hw3 : w = (⟨some 0, some "D2".data, some 1, some "Anode".data⟩ :
        Wire) := List.mem_singleton.mp hw
    have hw4 : w2 = (⟨some 0, some "D2".data, some 1, some "Anode".data⟩ :
        Wire) := List.mem_singleton.mp hw2
    subst hw3
    subst hw4
    have hq2 : some ("D2".data) = some q := hq
    rw [← Option.some_inj.mp hq2]
    decide
  have hnk : (dictKeys c9wSim.arduino_pins).Nodup := by decide
  have hnh : (dictKeys c9wSim.heap).Nodup := by decide
  exact ⟨⟨hdisj, hnk, hnh⟩,
    C9_amended c9wSim "digitalWrite(D2, HIGH)".data hdisj hnk hnh⟩

end Orion
